import Mathlib

/-! # Electricity spot-price display: the price data pipeline

A shallow embedding of `src/src/main.cpp` (with the thresholds of
`src/include/config.h`): the timestamp parser `parseUTCDate`, the colour
classifier `priceColour`, the aggregation loop of `fetchPrices` and the chart
scale and bar geometry of `drawScreen`.

Conventions of the embedding.
* `parseUTCDate` is given twice. `parseUTCDate32` is the function as the
  target runs it, with the 32-bit `int` and `long` of the ESP32: every
  arithmetic result is reduced to 32 bits, and `fetchPrices` calls this one.
  `parseUTCDate` is the same code with exact integers (`Int`), for the
  statement that takes integer arithmetic as exact and as the exact second
  count that the 32-bit results are compared with.
* The entry counts and the array indices stay far below 32 bits and are
  integers (`Int`).
* C `float` values are exact rationals (`ℚ`).
* C strings are `String`s, read character by character.
* The fixed-size arrays `float[24]` and `float[96]` are functions on `Fin 24`
  and `Fin 96`.
* Library calls are modelled by their documented behaviour (`sscanf`,
  `mktime`) or are parameters of the model (`localtime_r`, the HTTP and JSON
  layer).
-/

namespace Porssisahko

/-! ## `sscanf` with the format `"%d-%d-%dT%d:%d:%d"` -/

/-- The C `isspace` test in the default locale. -/
def isSpace (c : Char) : Bool :=
  c == ' ' || c == '\t' || c == '\n' || c == '\x0b' || c == '\x0c' || c == '\x0d'

/-- The value of a decimal digit character. -/
def digitVal (c : Char) : Nat := c.toNat - 48

/-- Reads the longest run of decimal digits, accumulating its value. -/
def scanDigits : Nat → List Char → Nat × List Char
  | acc, [] => (acc, [])
  | acc, c :: cs =>
    if c.isDigit then scanDigits (acc * 10 + digitVal c) cs else (acc, c :: cs)

/-- Drops leading white space, as every `%d` conversion does. -/
def skipSpace : List Char → List Char
  | [] => []
  | c :: cs => if isSpace c then skipSpace cs else c :: cs

/-- The digits of a `%d` conversion after its optional sign: at least one
digit is required, otherwise the conversion fails. -/
def scanUnsigned : List Char → Option (Nat × List Char)
  | [] => none
  | c :: cs => if c.isDigit then some (scanDigits 0 (c :: cs)) else none

/-- One `%d` conversion: white space, an optional sign, decimal digits.
Returns the value and the unread input, or `none` on a matching failure. -/
def scanInt (s : List Char) : Option (Int × List Char) :=
  match skipSpace s with
  | [] => none
  | c :: cs =>
    if c = '-' then (scanUnsigned cs).map (fun r => (-(r.1 : Int), r.2))
    else if c = '+' then (scanUnsigned cs).map (fun r => ((r.1 : Int), r.2))
    else (scanUnsigned (c :: cs)).map (fun r => ((r.1 : Int), r.2))

/-- A directive of a `scanf` format: a `%d` conversion or an ordinary
character that must match the input. -/
inductive Directive where
  | int : Directive
  | lit : Char → Directive
  deriving DecidableEq, Repr

/-- The values `sscanf` assigns, in order; it stops at the first directive
that fails, leaving the remaining variables untouched. -/
def sscanf : List Directive → List Char → List Int
  | [], _ => []
  | Directive.int :: ds, s =>
    match scanInt s with
    | none => []
    | some (v, rest) => v :: sscanf ds rest
  | Directive.lit c :: ds, s =>
    match s with
    | [] => []
    | x :: rest => if x = c then sscanf ds rest else []

/-- The format string `"%d-%d-%dT%d:%d:%d"`. -/
def dateFormat : List Directive :=
  [Directive.int, Directive.lit '-', Directive.int, Directive.lit '-', Directive.int,
   Directive.lit 'T', Directive.int, Directive.lit ':', Directive.int, Directive.lit ':',
   Directive.int]

/-! ## `parseUTCDate` -/

/-- The table `dim` of `parseUTCDate`. -/
def dim : List Int := [31, 28, 31, 30, 31, 30, 31, 31, 30, 31, 30, 31]

/-- The read `dim[i]`. The table has 12 entries; a read past its end
(which the C code performs for a month field above 13) yields whatever the
memory holds there, given by `past`. -/
def dimAt (past : Nat → Int) (i : Nat) : Int :=
  if i < 12 then dim.getD i 0 else past i

/-- The leap-year test of `parseUTCDate`:
`y % 4 == 0 && (y % 100 != 0 || y % 400 == 0)`. A remainder is compared with
zero only, so the sign convention of `%` does not matter. -/
def isLeap (y : Int) : Bool :=
  y % 4 == 0 && (y % 100 != 0 || y % 400 == 0)

/-- The loop `for (int y = 1970; y < year; y++) days += leap(y) ? 366 : 365;`
started with `days = 0`. -/
def yearLoop (year : Int) : Int :=
  (List.range (year - 1970).toNat).foldl
    (fun (days : Int) (i : Nat) => days + (if isLeap (1970 + (i : Int)) then 366 else 365)) 0

/-- The loop `for (int m = 1; m < mon; m++) { days += dim[m - 1];
if (m == 2 && leap) days++; }`. -/
def monthLoop (past : Nat → Int) (leap : Bool) (mon : Int) (days : Int) : Int :=
  (List.range (mon - 1).toNat).foldl
    (fun (days : Int) (i : Nat) =>
      let days := days + dimAt past i
      if i + 1 == 2 && leap then days + 1 else days) days

/-- The arithmetic of `parseUTCDate` on the six scanned fields, with exact
integers. -/
def epochSeconds (past : Nat → Int) (year mon day hour min sec : Int) : Int :=
  let days := yearLoop year
  let leap := isLeap year
  let days := monthLoop past leap mon days
  let days := days + (day - 1)
  days * 86400 + hour * 3600 + min * 60 + sec

/-- The function `parseUTCDate` with exact integers: the six fields start at
0, `sscanf` assigns the ones it converts, and the result is the second count
(`parseUTCDate32` below is the same code on 32-bit integers). -/
def parseUTCDate (past : Nat → Int) (s : String) : Int :=
  let vals := sscanf dateFormat s.toList
  epochSeconds past (vals.getD 0 0) (vals.getD 1 0) (vals.getD 2 0)
    (vals.getD 3 0) (vals.getD 4 0) (vals.getD 5 0)

/-! ## `parseUTCDate` on the target's 32-bit integers

The firmware runs on the ESP32 of the M5Stack Core2, where both `int` and
`long` have 32 bits: every intermediate result of `parseUTCDate` is reduced
to a 32-bit two's-complement value. -/

/-- The value a 32-bit two's-complement `int` or `long` holds for the
mathematical integer `x`. -/
def toInt32 (x : Int) : Int :=
  (x + 2147483648) % 4294967296 - 2147483648

/-- The loop `for (int y = 1970; y < year; y++) days += leap(y) ? 366 : 365;`
with `long days` of 32 bits. -/
def yearLoop32 (year : Int) : Int :=
  (List.range (year - 1970).toNat).foldl
    (fun (days : Int) (i : Nat) =>
      toInt32 (days + (if isLeap (1970 + (i : Int)) then 366 else 365))) 0

/-- The loop over the months with `long days` of 32 bits. -/
def monthLoop32 (past : Nat → Int) (leap : Bool) (mon : Int) (days : Int) : Int :=
  (List.range (mon - 1).toNat).foldl
    (fun (days : Int) (i : Nat) =>
      let days := toInt32 (days + dimAt past i)
      if i + 1 == 2 && leap then toInt32 (days + 1) else days) days

/-- The arithmetic of `parseUTCDate` in 32 bits: `days += day - 1`, then
`days * 86400L + hour * 3600L + min * 60L + sec`. -/
def epochSeconds32 (past : Nat → Int) (year mon day hour min sec : Int) : Int :=
  let days := yearLoop32 year
  let leap := isLeap year
  let days := monthLoop32 past leap mon days
  let days := toInt32 (days + toInt32 (day - 1))
  toInt32 (toInt32 (toInt32 (toInt32 (days * 86400) + toInt32 (hour * 3600))
    + toInt32 (min * 60)) + sec)

/-- The function `parseUTCDate` on the target: each converted field is
stored in an `int` (reduced to 32 bits), the arithmetic runs in 32 bits, and
the `long` result converts to `time_t` unchanged. -/
def parseUTCDate32 (past : Nat → Int) (s : String) : Int :=
  let vals := (sscanf dateFormat s.toList).map toInt32
  epochSeconds32 past (vals.getD 0 0) (vals.getD 1 0) (vals.getD 2 0)
    (vals.getD 3 0) (vals.getD 4 0) (vals.getD 5 0)

/-! ## Timestamps as text -/

/-- The decimal digits of `n` in a field of exactly `w` characters,
zero-padded on the left. -/
def fixedWidth : Nat → Nat → List Char
  | 0, _ => []
  | w + 1, n => fixedWidth w (n / 10) ++ [Nat.digitChar (n % 10)]

/-- The text `Y…Y-MM-DDTHH:MM:SS` with a year field of `w` characters and
two-character fields elsewhere, followed by `rest` (for instance `.000Z`). -/
def isoStamp (w : Nat) (year mon day hour min sec : Nat) (rest : String) : String :=
  String.mk (fixedWidth w year ++ ('-' :: (fixedWidth 2 mon ++ ('-' :: (fixedWidth 2 day ++
    ('T' :: (fixedWidth 2 hour ++ (':' :: (fixedWidth 2 min ++ (':' :: (fixedWidth 2 sec ++
    rest.toList)))))))))))

/-- Whether a character list begins with a decimal digit. -/
def headIsDigit : List Char → Bool
  | [] => false
  | c :: _ => c.isDigit

/-- Whether the text begins with a decimal digit (which would be read as part
of the seconds field). -/
def startsWithDigit (s : String) : Bool := headIsDigit s.toList

/-! ## The Gregorian calendar, as the specification words it -/

/-- Gregorian leap year: divisible by 4, except century years not divisible
by 400. -/
def gregorianLeap (y : Int) : Prop :=
  4 ∣ y ∧ (¬ 100 ∣ y ∨ 400 ∣ y)

instance (y : Int) : Decidable (gregorianLeap y) := by
  unfold gregorianLeap; infer_instance

/-- The length of month `m` (1 = January) of year `y`. -/
def monthLength (y m : Int) : Int :=
  if m = 2 then (if gregorianLeap y then 29 else 28)
  else if m = 4 ∨ m = 6 ∨ m = 9 ∨ m = 11 then 30
  else 31

/-- A calendar date. -/
structure Date where
  year : Int
  month : Int
  day : Int
  deriving DecidableEq, Repr

/-- A date of the Gregorian calendar. -/
def Date.Valid (d : Date) : Prop :=
  1 ≤ d.month ∧ d.month ≤ 12 ∧ 1 ≤ d.day ∧ d.day ≤ monthLength d.year d.month

instance (d : Date) : Decidable d.Valid := by
  unfold Date.Valid; infer_instance

/-- The day after a date. -/
def Date.next (d : Date) : Date :=
  if d.day < monthLength d.year d.month then { d with day := d.day + 1 }
  else if d.month < 12 then { d with month := d.month + 1, day := 1 }
  else { year := d.year + 1, month := 1, day := 1 }

/-- The first day of the epoch, 1970-01-01. -/
def epoch : Date := { year := 1970, month := 1, day := 1 }

/-- The date `n` days after `d`: `n` steps to the following day. -/
def Date.addDays (d : Date) (n : Nat) : Date := Date.next^[n] d

/-- A time of day. -/
def validClock (hour min sec : Int) : Prop :=
  0 ≤ hour ∧ hour ≤ 23 ∧ 0 ≤ min ∧ min ≤ 59 ∧ 0 ≤ sec ∧ sec ≤ 59

instance (hour min sec : Int) : Decidable (validClock hour min sec) := by
  unfold validClock; infer_instance


/-! ## Configuration (`config.h`) and colours -/

/-- The threshold `PRICE_LOW` (c/kWh). -/
def PRICE_LOW : ℚ := 10

/-- The threshold `PRICE_HIGH` (c/kWh). -/
def PRICE_HIGH : ℚ := 20

/-- The display's `color888(r, g, b)`: the three channels packed into 24 bits. -/
def color888 (r g b : Nat) : Nat := r * 65536 + g * 256 + b

/-- The colour of the LOW band. -/
def green : Nat := color888 0 210 0

/-- The colour of the MID band. -/
def amber : Nat := color888 220 180 0

/-- The colour of the HIGH band. -/
def red : Nat := color888 220 30 0

/-- The function `priceColour`. -/
def priceColour (cKwh : ℚ) : Nat :=
  if cKwh < PRICE_LOW then green
  else if cKwh < PRICE_HIGH then amber
  else red

/-! ## The state and the environment of `fetchPrices` -/

/-- The fields of the C `struct tm` that the program reads. -/
structure Tm where
  tm_year : Int
  tm_mon : Int
  tm_mday : Int
  tm_hour : Int
  tm_min : Int
  deriving DecidableEq, Repr

/-- One element of the decoded `prices` array: `entry["startDate"]` (absent
when the member is missing or not a string) and `entry["price"]`. -/
structure Entry where
  startDate : Option String
  price : ℚ

/-- The global arrays and the flag that `fetchPrices` writes. -/
structure Globals where
  g_prices : Fin 24 → ℚ
  g_qhPrices : Fin 96 → ℚ
  g_tmrPrices : Fin 24 → ℚ
  g_hasTomorrow : Bool

/-- The platform under the program: the local-time conversion
`localtime_r` and the memory past the table `dim`. -/
structure Platform where
  localtime_r : Int → Tm
  past : Nat → Int

/-- What one call of `fetchPrices` meets: the result of `http.begin`, the
status of `http.GET`, the decoded document (`none` when `deserializeJson`
reports an error, `some none` when `doc["prices"]` is no array) and the clock
`time(nullptr)`. -/
structure Response where
  beginOk : Bool
  code : Int
  json : Option (Option (List Entry))
  now : Int

/-- The globals together with the local arrays of `fetchPrices`. -/
structure Frame where
  g : Globals
  hourSum : Fin 24 → ℚ
  hourCount : Fin 24 → Int
  tmrSum : Fin 24 → ℚ
  tmrCount : Fin 24 → Int

/-- The comparison of `tm_year`, `tm_mon` and `tm_mday` of two times. -/
def sameDate (a b : Tm) : Bool :=
  a.tm_year == b.tm_year && a.tm_mon == b.tm_mon && a.tm_mday == b.tm_mday

/-- The calendar effect of `mktime` on a time that `localtime_r` returned and
whose `tm_mday` was then advanced by one: a day past the end of the month
rolls over into the next month, and into the next year after December
(`tm_mon` counts from 0, `tm_year` from 1900). The time of day is kept. -/
def mktime (t : Tm) : Tm :=
  if t.tm_mday ≤ monthLength (t.tm_year + 1900) (t.tm_mon + 1) then t
  else if t.tm_mon < 11 then
    { t with tm_mon := t.tm_mon + 1,
             tm_mday := t.tm_mday - monthLength (t.tm_year + 1900) (t.tm_mon + 1) }
  else
    { t with tm_year := t.tm_year + 1, tm_mon := 0,
             tm_mday := t.tm_mday - monthLength (t.tm_year + 1900) (t.tm_mon + 1) }

/-- The time `tmrTm`: `localNow` with `tm_mday += 1`, normalised by `mktime`. -/
def tomorrowOf (localNow : Tm) : Tm :=
  mktime { localNow with tm_mday := localNow.tm_mday + 1 }

/-- An array index that passed its bounds check. -/
def index (n : Nat) (i : Int) (h : 0 ≤ i ∧ i < n) : Fin n :=
  ⟨i.toNat, by omega⟩

/-- The body of the loop over the entries. -/
def entryStep (pf : Platform) (today tmr : Tm) (f : Frame) (entry : Entry) : Frame :=
  match entry.startDate with
  | none => f
  | some startDate =>
    let ts := parseUTCDate32 pf.past startDate
    let localEntry := pf.localtime_r ts
    if sameDate localEntry today then
      let h := localEntry.tm_hour
      let slot := h * 4 + Int.tdiv localEntry.tm_min 15
      let f : Frame :=
        if hs : 0 ≤ slot ∧ slot < (96 : Nat) then
          { f with g := { f.g with
              g_qhPrices := Function.update f.g.g_qhPrices (index 96 slot hs) entry.price } }
        else f
      if hh : 0 ≤ h ∧ h < (24 : Nat) then
        { f with
          hourSum := Function.update f.hourSum (index 24 h hh)
            (f.hourSum (index 24 h hh) + entry.price)
          hourCount := Function.update f.hourCount (index 24 h hh)
            (f.hourCount (index 24 h hh) + 1) }
      else f
    else if sameDate localEntry tmr then
      let h := localEntry.tm_hour
      if hh : 0 ≤ h ∧ h < (24 : Nat) then
        { f with
          tmrSum := Function.update f.tmrSum (index 24 h hh)
            (f.tmrSum (index 24 h hh) + entry.price)
          tmrCount := Function.update f.tmrCount (index 24 h hh)
            (f.tmrCount (index 24 h hh) + 1) }
      else f
    else f

/-- The body of the final loop `for (int h = 0; h < 24; h++)`. -/
def finalStep (f : Frame) (h : Fin 24) : Frame :=
  let f : Frame :=
    { f with g := { f.g with
        g_prices := Function.update f.g.g_prices h
          (if f.hourCount h > 0 then f.hourSum h / (f.hourCount h : ℚ) else 0) } }
  if f.tmrCount h > 0 then
    { f with g := { f.g with
        g_tmrPrices := Function.update f.g.g_tmrPrices h (f.tmrSum h / (f.tmrCount h : ℚ))
        g_hasTomorrow := true } }
  else f

/-- The state after the three `memset` calls and `g_hasTomorrow = false`,
with the zero-initialised local arrays. -/
def clearedFrame : Frame :=
  { g := { g_prices := fun _ => 0, g_qhPrices := fun _ => 0, g_tmrPrices := fun _ => 0,
           g_hasTomorrow := false }
    hourSum := fun _ => 0
    hourCount := fun _ => 0
    tmrSum := fun _ => 0
    tmrCount := fun _ => 0 }

/-- The aggregation of `fetchPrices`, from `time(nullptr)` to the end of the
final loop, for the decoded array `arr`. -/
def aggregate (pf : Platform) (now : Int) (arr : List Entry) : Globals :=
  let localNow := pf.localtime_r now
  let tmrTm := tomorrowOf localNow
  let f := arr.foldl (entryStep pf localNow tmrTm) clearedFrame
  ((List.finRange 24).foldl finalStep f).g

/-- The function `fetchPrices`: its return value and the globals after the
call. -/
def fetchPrices (pf : Platform) (r : Response) (g : Globals) : Bool × Globals :=
  if !r.beginOk then (false, g)
  else if r.code ≠ 200 then (false, g)
  else
    match r.json with
    | none => (false, g)
    | some none => (false, g)
    | some (some arr) => (true, aggregate pf r.now arr)

/-! ## The chart of `drawScreen` -/

/-- The constant `CHART_Y`. -/
def CHART_Y : Int := 93

/-- The constant `CHART_H`. -/
def CHART_H : Int := 125

/-- The body of the scale loop. -/
def scaleStep (g : Globals) (maxP : ℚ) (h : Fin 24) : ℚ :=
  let maxP := if g.g_prices h > maxP then g.g_prices h else maxP
  if g.g_hasTomorrow && decide (g.g_tmrPrices h > maxP) then g.g_tmrPrices h else maxP

/-- The scale maximum `maxP` of `drawScreen`. -/
def maxP (g : Globals) : ℚ :=
  (List.finRange 24).foldl (scaleStep g) 20

/-- The scale midpoint `midP` of `drawScreen`. -/
def midP (g : Globals) : ℚ := maxP g / 2

/-- The conversion `(int)x` of a float: truncation toward zero. -/
def truncToInt (x : ℚ) : Int := Int.tdiv x.num x.den

/-- The height `barH` of a bar: `max(2, (int)(value / maxP * CHART_H))`. -/
def barH (value scale : ℚ) : Int :=
  max 2 (truncToInt (value / scale * (CHART_H : ℚ)))

/-- The top `y` of a bar: `CHART_Y + CHART_H - barH`. -/
def barY (value scale : ℚ) : Int :=
  CHART_Y + CHART_H - barH value scale

/-- The vertical extent `(y, barH)` of the bar that `drawScreen` fills for
hour `h` of today (the chart is drawn once `g_dataReady` is set; the
horizontal placement `x`, `w` is not part of this development). -/
def todayBar (g : Globals) (h : Fin 24) : Int × Int :=
  (barY (g.g_prices h) (maxP g), barH (g.g_prices h) (maxP g))

/-- The vertical extents of tomorrow's bars, drawn only when `g_hasTomorrow`
is set. -/
def tomorrowBar (g : Globals) (h : Fin 24) : Option (Int × Int) :=
  if g.g_hasTomorrow then
    some (barY (g.g_tmrPrices h) (maxP g), barH (g.g_tmrPrices h) (maxP g))
  else none

/-! ## Entries by local date, hour and slot -/

/-- The local time of an entry: its start date parsed and converted, when it
has a start date. -/
def localOf (pf : Platform) (e : Entry) : Option Tm :=
  e.startDate.map (fun s => pf.localtime_r (parseUTCDate32 pf.past s))

/-- The entry has a start date, its local date is that of `day` and its
local hour is `h`. -/
def inHour (pf : Platform) (day : Tm) (h : Fin 24) (e : Entry) : Bool :=
  match localOf pf e with
  | none => false
  | some t => sameDate t day && t.tm_hour == (h.val : Int)

/-- The entry has a start date, its local date is that of `day` and its
quarter-hour slot `hour*4 + minute/15` is `i`. -/
def inSlot (pf : Platform) (day : Tm) (i : Fin 96) (e : Entry) : Bool :=
  match localOf pf e with
  | none => false
  | some t => sameDate t day && t.tm_hour * 4 + Int.tdiv t.tm_min 15 == (i.val : Int)

/-- The arithmetic mean of a list of prices, 0 for the empty list. -/
def mean (l : List ℚ) : ℚ :=
  if l = [] then 0 else l.sum / (l.length : ℚ)

/-- The prices of the entries of `arr` that satisfy `p`, in order. -/
def pricesOf (p : Entry → Bool) (arr : List Entry) : List ℚ :=
  (arr.filter p).map Entry.price

/-- A platform whose clock reads UTC on the first day of the epoch: the
local hour and minute are those of the second count. -/
def samplePlatform : Platform :=
  { localtime_r := fun ts =>
      { tm_year := 70, tm_mon := 0, tm_mday := 1 + ts / 86400,
        tm_hour := ts % 86400 / 3600, tm_min := ts % 3600 / 60 }
    past := fun _ => 0 }

/-- A call that fetches the decoded array `arr` with status 200 at time 0. -/
def okResponse (arr : List Entry) : Response :=
  { beginOk := true, code := 200, json := some (some arr), now := 0 }

/-- Globals left by an earlier fetch: every price is 5 and tomorrow is
present. -/
def staleGlobals : Globals :=
  { g_prices := fun _ => 5, g_qhPrices := fun _ => 5, g_tmrPrices := fun _ => 5,
    g_hasTomorrow := true }

/-- The value of `days` in `parseUTCDate` after `days += day - 1`. -/
def dayNumber (past : Nat → Int) (d : Date) : Int :=
  monthLoop past (isLeap d.year) d.month (yearLoop d.year) + (d.day - 1)

/-- Days in a year. -/
def yearLength (y : Int) : Int := if isLeap y then 366 else 365

/-- Days of the year before month `m`, as a closed form of the month loop. -/
def daysBeforeMonth (leap : Bool) (m : Int) : Int :=
  (dim.take (m - 1).toNat).sum + (if leap && decide (2 < m) then 1 else 0)

/-- The store `g_qhPrices[slot] = price` behind its bounds check. -/
def putSlot (t : Tm) (price : ℚ) (f : Frame) : Frame :=
  if hs : 0 ≤ t.tm_hour * 4 + Int.tdiv t.tm_min 15 ∧
      t.tm_hour * 4 + Int.tdiv t.tm_min 15 < (96 : Nat) then
    { f with g := { f.g with
        g_qhPrices := Function.update f.g.g_qhPrices
          (index 96 (t.tm_hour * 4 + Int.tdiv t.tm_min 15) hs) price } }
  else f

/-- The update `hourSum[h] += price; hourCount[h]++` behind its bounds check. -/
def addHour (t : Tm) (price : ℚ) (f : Frame) : Frame :=
  if hh : 0 ≤ t.tm_hour ∧ t.tm_hour < (24 : Nat) then
    { f with
      hourSum := Function.update f.hourSum (index 24 t.tm_hour hh)
        (f.hourSum (index 24 t.tm_hour hh) + price)
      hourCount := Function.update f.hourCount (index 24 t.tm_hour hh)
        (f.hourCount (index 24 t.tm_hour hh) + 1) }
  else f

/-- The update `tmrSum[h] += price; tmrCount[h]++` behind its bounds check. -/
def tomorrowBranch (t : Tm) (price : ℚ) (f : Frame) : Frame :=
  if hh : 0 ≤ t.tm_hour ∧ t.tm_hour < (24 : Nat) then
    { f with
      tmrSum := Function.update f.tmrSum (index 24 t.tm_hour hh)
        (f.tmrSum (index 24 t.tm_hour hh) + price)
      tmrCount := Function.update f.tmrCount (index 24 t.tm_hour hh)
        (f.tmrCount (index 24 t.tm_hour hh) + 1) }
  else f

/-- The value the final loop stores in `g_prices[h]`. -/
def average (f : Frame) (h : Fin 24) : ℚ :=
  if f.hourCount h > 0 then f.hourSum h / (f.hourCount h : ℚ) else 0

/-! ## Calendar arithmetic of `parseUTCDate` -/

theorem isLeap_iff (y : Int) : isLeap y = true ↔ gregorianLeap y := by
  unfold isLeap gregorianLeap
  simp only [Bool.and_eq_true, Bool.or_eq_true, beq_iff_eq, bne_iff_ne, ne_eq]
  omega

theorem yearLoop_base : yearLoop 1970 = 0 := by decide

theorem yearLoop_succ (y : Int) (hy : 1970 ≤ y) :
    yearLoop (y + 1) = yearLoop y + yearLength y := by
  unfold yearLoop yearLength
  have h1 : (y + 1 - 1970).toNat = (y - 1970).toNat + 1 := by omega
  have h2 : (1970 : Int) + ((y - 1970).toNat : Int) = y := by omega
  rw [h1, List.range_succ, List.foldl_append]
  simp only [List.foldl_cons, List.foldl_nil, h2]

theorem yearLoop_nonneg (y : Int) : 0 ≤ yearLoop y := by
  by_cases hy : 1970 ≤ y
  · obtain ⟨n, rfl⟩ : ∃ n : Nat, y = 1970 + n := ⟨(y - 1970).toNat, by omega⟩
    induction n with
    | zero => simp [yearLoop_base]
    | succ n ih =>
      have := yearLoop_succ (1970 + (n : Int)) (by omega)
      have h3 : (1970 : Int) + ((n + 1 : Nat) : Int) = 1970 + (n : Int) + 1 := by push_cast; ring
      rw [h3, this]
      unfold yearLength
      split <;> omega
  · have : (y - 1970).toNat = 0 := by omega
    simp [yearLoop, this]

/-- The year loop grows by at least a whole year per year. -/
theorem yearLoop_step_le (y : Int) (hy : 1970 ≤ y) (k : Nat) :
    yearLoop y + yearLength y ≤ yearLoop (y + 1 + k) := by
  induction k with
  | zero => simp [yearLoop_succ y hy]
  | succ k ih =>
    have h := yearLoop_succ (y + 1 + k) (by omega)
    have h3 : y + 1 + ((k + 1 : Nat) : Int) = y + 1 + (k : Int) + 1 := by push_cast; ring
    rw [h3, h]
    have : 0 ≤ yearLength (y + 1 + k) := by unfold yearLength; split <;> omega
    omega

theorem monthLoop_eq (past : Nat → Int) (leap : Bool) (m days : Int)
    (h1 : 1 ≤ m) (h12 : m ≤ 13) :
    monthLoop past leap m days = days + daysBeforeMonth leap m := by
  have hm : m = 1 ∨ m = 2 ∨ m = 3 ∨ m = 4 ∨ m = 5 ∨ m = 6 ∨ m = 7 ∨ m = 8 ∨ m = 9 ∨ m = 10
      ∨ m = 11 ∨ m = 12 ∨ m = 13 := by omega
  rcases hm with h | h | h | h | h | h | h | h | h | h | h | h | h <;> subst h <;>
    cases leap <;>
    simp [monthLoop, daysBeforeMonth, dimAt, dim, List.range_succ] <;> ring

theorem epochSeconds_eq (past : Nat → Int) (y m d h mi s : Int) :
    epochSeconds past y m d h mi s
      = dayNumber past ⟨y, m, d⟩ * 86400 + h * 3600 + mi * 60 + s := rfl

theorem isLeap_eq_decide (y : Int) : isLeap y = decide (gregorianLeap y) := by
  by_cases h : gregorianLeap y
  · simp [h, (isLeap_iff y).2 h]
  · have : isLeap y = false := by
      cases hl : isLeap y
      · rfl
      · exact absurd ((isLeap_iff y).1 hl) h
    simp [h, this]

theorem twelve_cases (m : Int) (h1 : 1 ≤ m) (h12 : m ≤ 12) :
    m = 1 ∨ m = 2 ∨ m = 3 ∨ m = 4 ∨ m = 5 ∨ m = 6 ∨ m = 7 ∨ m = 8 ∨ m = 9 ∨ m = 10
      ∨ m = 11 ∨ m = 12 := by omega

theorem daysBeforeMonth_succ (y m : Int) (h1 : 1 ≤ m) (h12 : m ≤ 12) :
    daysBeforeMonth (isLeap y) (m + 1) = daysBeforeMonth (isLeap y) m + monthLength y m := by
  rw [isLeap_eq_decide]
  rcases twelve_cases m h1 h12 with h | h | h | h | h | h | h | h | h | h | h | h <;>
    subst h <;> by_cases hl : gregorianLeap y <;>
    simp [daysBeforeMonth, monthLength, dim, hl]

theorem daysBeforeMonth_one (leap : Bool) : daysBeforeMonth leap 1 = 0 := by
  cases leap <;> simp [daysBeforeMonth]

theorem daysBeforeMonth_thirteen (y : Int) :
    daysBeforeMonth (isLeap y) 13 = yearLength y := by
  cases h : isLeap y <;> simp [daysBeforeMonth, yearLength, dim, h]

theorem monthLength_pos (y m : Int) : 28 ≤ monthLength y m := by
  unfold monthLength
  split_ifs <;> omega

theorem daysBeforeMonth_mono (y m : Int) (h1 : 1 ≤ m) (k : Nat) (h12 : m + k ≤ 13) :
    daysBeforeMonth (isLeap y) m ≤ daysBeforeMonth (isLeap y) (m + k) := by
  induction k with
  | zero => simp
  | succ k ih =>
    have h := daysBeforeMonth_succ y (m + k) (by omega) (by push_cast at h12; omega)
    have h3 : m + ((k + 1 : Nat) : Int) = m + (k : Int) + 1 := by push_cast; ring
    have hp := monthLength_pos y (m + k)
    have := ih (by push_cast at h12; omega)
    rw [h3, h]
    omega

theorem dayNumber_eq (past : Nat → Int) (d : Date) (h1 : 1 ≤ d.month) (h12 : d.month ≤ 12) :
    dayNumber past d
      = yearLoop d.year + daysBeforeMonth (isLeap d.year) d.month + (d.day - 1) := by
  unfold dayNumber
  rw [monthLoop_eq past _ _ _ h1 (by omega)]

theorem dayNumber_mk (past : Nat → Int) (y m d : Int) (h1 : 1 ≤ m) (h12 : m ≤ 12) :
    dayNumber past ⟨y, m, d⟩ = yearLoop y + daysBeforeMonth (isLeap y) m + (d - 1) :=
  dayNumber_eq past ⟨y, m, d⟩ h1 h12

theorem dayNumber_epoch (past : Nat → Int) : dayNumber past epoch = 0 := by
  rw [dayNumber_eq past epoch (by decide) (by decide)]
  simp [epoch, yearLoop_base, daysBeforeMonth_one]

/-- Within one year the day count is strictly increasing in (month, day). -/
theorem dayOfYear_lt (y m1 d1 m2 d2 : Int) (h1 : 1 ≤ m1) (hlt : m1 < m2) (h12 : m2 ≤ 12)
    (hd1 : d1 ≤ monthLength y m1) (hd2 : 1 ≤ d2) :
    daysBeforeMonth (isLeap y) m1 + (d1 - 1) < daysBeforeMonth (isLeap y) m2 + (d2 - 1) := by
  have hs := daysBeforeMonth_succ y m1 h1 (by omega)
  obtain ⟨k, hk⟩ : ∃ k : Nat, m2 = m1 + 1 + k := ⟨(m2 - m1 - 1).toNat, by omega⟩
  have hm := daysBeforeMonth_mono y (m1 + 1) (by omega) k (by omega)
  rw [← hk] at hm
  omega

/-- The day count of the day after a valid date is one more. -/
theorem dayNumber_next (past : Nat → Int) (d : Date) (hv : d.Valid) (hy : 1970 ≤ d.year) :
    dayNumber past d.next = dayNumber past d + 1 ∧ d.next.Valid ∧ 1970 ≤ d.next.year := by
  obtain ⟨h1, h12, hd1, hdl⟩ := hv
  have hp := monthLength_pos d.year d.month
  unfold Date.next
  by_cases hday : d.day < monthLength d.year d.month
  · rw [if_pos hday]
    refine ⟨?_, ⟨h1, h12, by show (1 : Int) ≤ d.day + 1; omega,
      by show d.day + 1 ≤ monthLength d.year d.month; omega⟩, hy⟩
    rw [dayNumber_eq past ⟨d.year, d.month, d.day + 1⟩ h1 h12, dayNumber_eq past d h1 h12]
    show yearLoop d.year + daysBeforeMonth (isLeap d.year) d.month + (d.day + 1 - 1) = _
    omega
  · rw [if_neg hday]
    by_cases hmon : d.month < 12
    · rw [if_pos hmon]
      have hp2 := monthLength_pos d.year (d.month + 1)
      refine ⟨?_, ⟨by show (1 : Int) ≤ d.month + 1; omega, by show d.month + 1 ≤ 12; omega,
        le_refl _, by show (1 : Int) ≤ monthLength d.year (d.month + 1); omega⟩, hy⟩
      rw [dayNumber_eq past ⟨d.year, d.month + 1, 1⟩ (by show (1 : Int) ≤ d.month + 1; omega)
        (by show d.month + 1 ≤ 12; omega), dayNumber_eq past d h1 h12]
      show yearLoop d.year + daysBeforeMonth (isLeap d.year) (d.month + 1) + (1 - 1) = _
      rw [daysBeforeMonth_succ d.year d.month h1 h12]
      omega
    · rw [if_neg hmon]
      have hm12 : d.month = 12 := by omega
      have hp2 := monthLength_pos (d.year + 1) 1
      refine ⟨?_, ⟨le_refl _, by show (1 : Int) ≤ 12; decide, le_refl _,
        by show (1 : Int) ≤ monthLength (d.year + 1) 1; omega⟩,
        by show 1970 ≤ d.year + 1; omega⟩
      rw [dayNumber_eq past ⟨d.year + 1, 1, 1⟩ (le_refl _) (by show (1 : Int) ≤ 12; decide),
        dayNumber_eq past d h1 h12]
      show yearLoop (d.year + 1) + daysBeforeMonth (isLeap (d.year + 1)) 1 + (1 - 1) = _
      have h13 := daysBeforeMonth_succ d.year 12 (by decide) (by decide)
      rw [show (12 : Int) + 1 = 13 by rfl, daysBeforeMonth_thirteen] at h13
      rw [yearLoop_succ d.year hy, daysBeforeMonth_one, hm12]
      rw [hm12] at hdl hday
      omega

/-- Counting `n` days from the epoch gives a valid date whose day count in
`parseUTCDate` is `n`. -/
theorem dayNumber_addDays (past : Nat → Int) (n : Nat) :
    dayNumber past (epoch.addDays n) = n ∧ (epoch.addDays n).Valid
      ∧ 1970 ≤ (epoch.addDays n).year := by
  induction n with
  | zero => exact ⟨by simpa [Date.addDays] using dayNumber_epoch past, by decide, by decide⟩
  | succ n ih =>
    obtain ⟨hn, hv, hy⟩ := ih
    have h := dayNumber_next past _ hv hy
    have e : epoch.addDays (n + 1) = (epoch.addDays n).next := by
      unfold Date.addDays
      exact Function.iterate_succ_apply' _ _ _
    rw [e]
    refine ⟨?_, h.2.1, h.2.2⟩
    rw [h.1, hn]
    push_cast
    rfl

/-- The day within the year is below the year's length. -/
theorem dayOfYear_bounds (d : Date) (hv : d.Valid) :
    0 ≤ daysBeforeMonth (isLeap d.year) d.month + (d.day - 1) ∧
    daysBeforeMonth (isLeap d.year) d.month + (d.day - 1) < yearLength d.year := by
  obtain ⟨h1, h12, hd1, hdl⟩ := hv
  have hs := daysBeforeMonth_succ d.year d.month h1 h12
  obtain ⟨k, hk⟩ : ∃ k : Nat, (13 : Int) = d.month + 1 + k := ⟨(12 - d.month).toNat, by omega⟩
  have hm := daysBeforeMonth_mono d.year (d.month + 1) (by omega) k (by omega)
  rw [← hk, daysBeforeMonth_thirteen] at hm
  obtain ⟨j, hj⟩ : ∃ j : Nat, d.month = 1 + j := ⟨(d.month - 1).toNat, by omega⟩
  have hm0 := daysBeforeMonth_mono d.year 1 (le_refl _) j (by omega)
  rw [← hj, daysBeforeMonth_one] at hm0
  omega

/-- The day count of `parseUTCDate` tells valid dates from 1970 on apart. -/
theorem dayNumber_injective (past : Nat → Int) (a b : Date) (ha : a.Valid) (hb : b.Valid)
    (hya : 1970 ≤ a.year) (hyb : 1970 ≤ b.year) (h : dayNumber past a = dayNumber past b) :
    a = b := by
  rw [dayNumber_eq past a ha.1 ha.2.1, dayNumber_eq past b hb.1 hb.2.1] at h
  have hba := dayOfYear_bounds a ha
  have hbb := dayOfYear_bounds b hb
  have hyear : a.year = b.year := by
    rcases lt_trichotomy a.year b.year with hlt | heq | hgt
    · obtain ⟨k, hk⟩ : ∃ k : Nat, b.year = a.year + 1 + k := ⟨(b.year - a.year - 1).toNat, by omega⟩
      have := yearLoop_step_le a.year hya k
      rw [← hk] at this
      omega
    · exact heq
    · obtain ⟨k, hk⟩ : ∃ k : Nat, a.year = b.year + 1 + k := ⟨(a.year - b.year - 1).toNat, by omega⟩
      have := yearLoop_step_le b.year hyb k
      rw [← hk] at this
      omega
  have hmonth : a.month = b.month := by
    rcases lt_trichotomy a.month b.month with hlt | heq | hgt
    · have := dayOfYear_lt a.year a.month a.day b.month b.day ha.1 hlt hb.2.1 ha.2.2.2 hb.2.2.1
      rw [hyear] at h this
      omega
    · exact heq
    · have := dayOfYear_lt b.year b.month b.day a.month a.day hb.1 hgt ha.2.1 hb.2.2.2 ha.2.2.1
      rw [hyear] at h
      omega
  have hday : a.day = b.day := by
    rw [hyear, hmonth] at h
    omega
  cases a; cases b
  simp_all

/-! ## Reading back a written timestamp -/

theorem digitChar_spec : ∀ k : Fin 10,
    (Nat.digitChar k.val).isDigit = true ∧ digitVal (Nat.digitChar k.val) = k.val := by
  decide

theorem isDigit_not_sign (c : Char) (h : c.isDigit = true) :
    isSpace c = false ∧ c ≠ '-' ∧ c ≠ '+' := by
  refine ⟨?_, ?_, ?_⟩
  · simp only [isSpace, Bool.or_eq_false_iff, beq_eq_false_iff_ne, ne_eq]
    refine ⟨⟨⟨⟨⟨?_, ?_⟩, ?_⟩, ?_⟩, ?_⟩, ?_⟩ <;> rintro rfl <;> exact absurd h (by decide)
  · rintro rfl; exact absurd h (by decide)
  · rintro rfl; exact absurd h (by decide)

theorem scanDigits_stop (acc : Nat) (r : List Char) (hr : headIsDigit r = false) :
    scanDigits acc r = (acc, r) := by
  cases r with
  | nil => rfl
  | cons c cs =>
    have hc : c.isDigit = false := hr
    simp [scanDigits, hc]

theorem scanDigits_fixedWidth (w : Nat) : ∀ (n acc : Nat) (r : List Char), n < 10 ^ w →
    scanDigits acc (fixedWidth w n ++ r) = scanDigits (acc * 10 ^ w + n) r := by
  induction w with
  | zero =>
    intro n acc r hn
    have : n = 0 := by simpa using hn
    simp [fixedWidth, this]
  | succ w ih =>
    intro n acc r hn
    have hq : n / 10 < 10 ^ w := by
      rw [Nat.div_lt_iff_lt_mul (by decide)]
      rw [pow_succ] at hn
      exact hn
    have hd := digitChar_spec ⟨n % 10, Nat.mod_lt _ (by decide)⟩
    simp only [fixedWidth, List.append_assoc, List.singleton_append]
    rw [ih (n / 10) acc _ hq]
    simp only [scanDigits, hd.1, hd.2, if_true]
    congr 1
    rw [pow_succ]
    have := Nat.div_add_mod n 10
    nlinarith [Nat.div_add_mod n 10]

theorem fixedWidth_head (w : Nat) : ∀ (n : Nat) (r : List Char),
    ∃ c cs, fixedWidth (w + 1) n ++ r = c :: cs ∧ c.isDigit = true := by
  induction w with
  | zero =>
    intro n r
    exact ⟨Nat.digitChar (n % 10), r, by simp [fixedWidth],
      (digitChar_spec ⟨n % 10, Nat.mod_lt _ (by decide)⟩).1⟩
  | succ w ih =>
    intro n r
    obtain ⟨c, cs, h, hc⟩ := ih (n / 10) (Nat.digitChar (n % 10) :: r)
    refine ⟨c, cs, ?_, hc⟩
    rw [← h]
    simp [fixedWidth]

/-- A `%d` conversion reads a zero-padded field back. -/
theorem scanInt_fixedWidth (w n : Nat) (r : List Char) (hn : n < 10 ^ (w + 1))
    (hr : headIsDigit r = false) :
    scanInt (fixedWidth (w + 1) n ++ r) = some ((n : Int), r) := by
  obtain ⟨c, cs, h, hc⟩ := fixedWidth_head w n r
  obtain ⟨hsp, hm, hp⟩ := isDigit_not_sign c hc
  have hscan := scanDigits_fixedWidth (w + 1) n 0 r hn
  rw [h] at hscan
  rw [h]
  simp only [scanInt, skipSpace, hsp, Bool.false_eq_true, if_false, hm, hp, scanUnsigned, hc,
    if_true, Option.map_some', hscan]
  rw [scanDigits_stop _ r hr]
  simp

/-- The six fields `sscanf` reads from a written timestamp are the ones
written. -/
theorem sscanf_isoStamp (w y m d h mi s : Nat) (rest : String) (hy : y < 10 ^ (w + 1))
    (hm : m < 100) (hd : d < 100) (hh : h < 100) (hmi : mi < 100) (hs : s < 100)
    (hrest : startsWithDigit rest = false) :
    sscanf dateFormat (isoStamp (w + 1) y m d h mi s rest).toList
      = [(y : Int), (m : Int), (d : Int), (h : Int), (mi : Int), (s : Int)] := by
  have e2 : (100 : Nat) = 10 ^ (1 + 1) := by norm_num
  rw [e2] at hm hd hh hmi hs
  have hrest0 : headIsDigit rest.data = false := hrest
  simp only [isoStamp, String.toList, dateFormat, sscanf]
  rw [scanInt_fixedWidth w y _ hy (by rfl)]
  simp only [if_true]
  rw [scanInt_fixedWidth 1 m _ hm (by rfl)]
  simp only [if_true]
  rw [scanInt_fixedWidth 1 d _ hd (by rfl)]
  simp only [if_true]
  rw [scanInt_fixedWidth 1 h _ hh (by rfl)]
  simp only [if_true]
  rw [scanInt_fixedWidth 1 mi _ hmi (by rfl)]
  simp only [if_true]
  rw [scanInt_fixedWidth 1 s _ hs hrest0]

/-- On a written timestamp `parseUTCDate` is its arithmetic on the written
fields. -/
theorem parseUTCDate_isoStamp (past : Nat → Int) (w y m d h mi s : Nat) (rest : String)
    (hy : y < 10 ^ (w + 1))
    (hm : m < 100) (hd : d < 100) (hh : h < 100) (hmi : mi < 100) (hs : s < 100)
    (hrest : startsWithDigit rest = false) :
    parseUTCDate past (isoStamp (w + 1) y m d h mi s rest)
      = epochSeconds past y m d h mi s := by
  unfold parseUTCDate
  rw [sscanf_isoStamp w y m d h mi s rest hy hm hd hh hmi hs hrest]
  rfl

/-! ## Lexicographic order of written timestamps -/

theorem lex_cons_cases {a b : Char} {l₁ l₂ : List Char}
    (h : List.Lex (· < ·) (a :: l₁) (b :: l₂)) :
    a < b ∨ (a = b ∧ List.Lex (· < ·) l₁ l₂) := by
  cases h with
  | cons h => exact Or.inr ⟨rfl, h⟩
  | rel h => exact Or.inl h

theorem lex_sep {c : Char} {l₁ l₂ : List Char}
    (h : List.Lex (· < ·) (c :: l₁) (c :: l₂)) : List.Lex (· < ·) l₁ l₂ := by
  rcases lex_cons_cases h with h | h
  · exact absurd h (lt_irrefl c)
  · exact h.2

theorem lex_cancel (p : List Char) {l₁ l₂ : List Char}
    (h : List.Lex (· < ·) (p ++ l₁) (p ++ l₂)) : List.Lex (· < ·) l₁ l₂ := by
  induction p with
  | nil => exact h
  | cons c p ih => exact ih (lex_sep h)

theorem digitChar_lt_inv : ∀ a b : Fin 10,
    Nat.digitChar a.val < Nat.digitChar b.val → a < b := by
  decide

theorem digitChar_inj : ∀ a b : Fin 10,
    Nat.digitChar a.val = Nat.digitChar b.val → a = b := by
  decide

theorem fixedWidth_two (n : Nat) (h : n < 100) :
    fixedWidth 2 n = [Nat.digitChar (n / 10), Nat.digitChar (n % 10)] := by
  have : n / 10 % 10 = n / 10 := Nat.mod_eq_of_lt (by omega)
  simp [fixedWidth, this]

/-- Comparing two texts that begin with a two-digit field compares the
fields first. -/
theorem lex_field {a b : Nat} {l₁ l₂ : List Char} (ha : a < 100) (hb : b < 100)
    (h : List.Lex (· < ·) (fixedWidth 2 a ++ l₁) (fixedWidth 2 b ++ l₂)) :
    a < b ∨ (a = b ∧ List.Lex (· < ·) l₁ l₂) := by
  rw [fixedWidth_two a ha, fixedWidth_two b hb] at h
  have ha1 : a / 10 < 10 := by omega
  have hb1 : b / 10 < 10 := by omega
  have ha0 : a % 10 < 10 := by omega
  have hb0 : b % 10 < 10 := by omega
  rcases lex_cons_cases h with h | ⟨he, h⟩
  · have := digitChar_lt_inv ⟨a / 10, ha1⟩ ⟨b / 10, hb1⟩ h
    have : a / 10 < b / 10 := this
    left; omega
  · have := digitChar_inj ⟨a / 10, ha1⟩ ⟨b / 10, hb1⟩ he
    have h10 : a / 10 = b / 10 := congrArg Fin.val this
    rcases lex_cons_cases h with h | ⟨he, h⟩
    · have := digitChar_lt_inv ⟨a % 10, ha0⟩ ⟨b % 10, hb0⟩ h
      have : a % 10 < b % 10 := this
      left; omega
    · have := digitChar_inj ⟨a % 10, ha0⟩ ⟨b % 10, hb0⟩ he
      have h1 : a % 10 = b % 10 := congrArg Fin.val this
      right
      exact ⟨by omega, h⟩

/-- Two written timestamps of the same year in lexicographic order have
their fields in lexicographic order. -/
theorem isoStamp_lex (w y m₁ d₁ h₁ mi₁ s₁ m₂ d₂ h₂ mi₂ s₂ : Nat) (r₁ r₂ : String)
    (hm₁ : m₁ < 100) (hd₁ : d₁ < 100) (hh₁ : h₁ < 100) (hmi₁ : mi₁ < 100) (hs₁ : s₁ < 100)
    (hm₂ : m₂ < 100) (hd₂ : d₂ < 100) (hh₂ : h₂ < 100) (hmi₂ : mi₂ < 100) (hs₂ : s₂ < 100)
    (h : isoStamp w y m₁ d₁ h₁ mi₁ s₁ r₁ < isoStamp w y m₂ d₂ h₂ mi₂ s₂ r₂) :
    m₁ < m₂ ∨ (m₁ = m₂ ∧ (d₁ < d₂ ∨ (d₁ = d₂ ∧ (h₁ < h₂ ∨ (h₁ = h₂ ∧
      (mi₁ < mi₂ ∨ (mi₁ = mi₂ ∧ s₁ ≤ s₂))))))) := by
  have h0 : List.Lex (· < ·) (isoStamp w y m₁ d₁ h₁ mi₁ s₁ r₁).toList
      (isoStamp w y m₂ d₂ h₂ mi₂ s₂ r₂).toList := String.lt_iff_toList_lt.1 h
  simp only [isoStamp, String.toList] at h0
  have h1 := lex_sep (lex_cancel _ h0)
  rcases lex_field hm₁ hm₂ h1 with hlt | ⟨he, h2⟩
  · exact Or.inl hlt
  refine Or.inr ⟨he, ?_⟩
  rcases lex_field hd₁ hd₂ (lex_sep h2) with hlt | ⟨he, h3⟩
  · exact Or.inl hlt
  refine Or.inr ⟨he, ?_⟩
  rcases lex_field hh₁ hh₂ (lex_sep h3) with hlt | ⟨he, h4⟩
  · exact Or.inl hlt
  refine Or.inr ⟨he, ?_⟩
  rcases lex_field hmi₁ hmi₂ (lex_sep h4) with hlt | ⟨he, h5⟩
  · exact Or.inl hlt
  refine Or.inr ⟨he, ?_⟩
  rcases lex_field hs₁ hs₂ (lex_sep h5) with hlt | ⟨he, _⟩
  · exact Nat.le_of_lt hlt
  · exact Nat.le_of_eq he

theorem monthLength_le (y m : Int) : monthLength y m ≤ 31 := by
  unfold monthLength
  split_ifs <;> omega

/-! ## The timestamp parser with exact integers: claim C1 -/

/-- C1. For every valid calendar timestamp (year at least 1970, a month
1..12, a day within the month's Gregorian length, hour 0..23, minute 0..59,
second 0..59), written as text with any year width and any tail that does not
begin with a digit, `parseUTCDate` returns 86400 times the number of calendar
days from 1970-01-01 to the date (the unique `n` with `epoch.addDays n` equal
to the date) plus `hour*3600 + minute*60 + second`; and
`parseUTCDate "1970-01-01T00:00:00.000Z"` is 0. -/
theorem parseUTCDate_counts_calendar_days (past : Nat → Int) :
    (∀ (w y m d h mi s : Nat) (rest : String),
      1970 ≤ y → y < 10 ^ w → Date.Valid ⟨y, m, d⟩ → validClock h mi s →
      startsWithDigit rest = false →
      ∃ n : Nat, epoch.addDays n = ⟨y, m, d⟩ ∧
        (∀ k : Nat, epoch.addDays k = ⟨y, m, d⟩ → k = n) ∧
        parseUTCDate past (isoStamp w y m d h mi s rest)
          = 86400 * (n : Int) + (h : Int) * 3600 + (mi : Int) * 60 + (s : Int)) ∧
    parseUTCDate past "1970-01-01T00:00:00.000Z" = 0 := by
  refine ⟨?_, ?_⟩
  · intro w y m d h mi s rest hy hw hdate hclock hrest
    obtain ⟨w, rfl⟩ : ∃ v, w = v + 1 := by
      cases w with
      | zero => simp at hw; omega
      | succ v => exact ⟨v, rfl⟩
    have hyear : (1970 : Int) ≤ (y : Int) := by exact_mod_cast hy
    have hml := monthLength_le (y : Int) (m : Int)
    obtain ⟨hm1, hm12, hd1, hdl⟩ := hdate
    have hdate : Date.Valid ⟨y, m, d⟩ := ⟨hm1, hm12, hd1, hdl⟩
    simp only at hm1 hm12 hd1 hdl
    obtain ⟨hh0, hh, hmi0, hmi, hs0, hs⟩ := hclock
    have hparse := parseUTCDate_isoStamp past w y m d h mi s rest hw (by omega) (by omega)
      (by omega) (by omega) (by omega) hrest
    have hnn : 0 ≤ dayNumber past ⟨y, m, d⟩ := by
      rw [dayNumber_eq past _ hm1 hm12]
      have := yearLoop_nonneg (y : Int)
      have := (dayOfYear_bounds ⟨y, m, d⟩ hdate).1
      simp only at this ⊢
      omega
    obtain ⟨n, hn⟩ : ∃ n : Nat, dayNumber past ⟨y, m, d⟩ = n :=
      ⟨(dayNumber past ⟨y, m, d⟩).toNat, by omega⟩
    have hadd := dayNumber_addDays past n
    have hreach : epoch.addDays n = ⟨y, m, d⟩ :=
      dayNumber_injective past _ _ hadd.2.1 hdate hadd.2.2 hyear (by rw [hadd.1, hn])
    refine ⟨n, hreach, ?_, ?_⟩
    · intro k hk
      have hkd := (dayNumber_addDays past k).1
      rw [hk, hn] at hkd
      exact_mod_cast hkd.symm
    · rw [hparse, epochSeconds_eq, hn]
      ring
  · rfl

/-- C1 at 2024-02-29T23:59:59.000Z: the 19782nd day after the epoch. -/
theorem parseUTCDate_counts_calendar_days_witness :
    (1970 ≤ 2024 ∧ 2024 < 10 ^ 4 ∧ Date.Valid ⟨2024, 2, 29⟩ ∧ validClock 23 59 59 ∧
      startsWithDigit ".000Z" = false) ∧
    ∃ n : Nat, epoch.addDays n = ⟨((2024 : Nat) : Int), ((2 : Nat) : Int), ((29 : Nat) : Int)⟩ ∧
      (∀ k : Nat, epoch.addDays k
        = ⟨((2024 : Nat) : Int), ((2 : Nat) : Int), ((29 : Nat) : Int)⟩ → k = n) ∧
      parseUTCDate (fun _ => 0) (isoStamp 4 2024 2 29 23 59 59 ".000Z")
        = 86400 * (n : Int) + ((23 : Nat) : Int) * 3600 + ((59 : Nat) : Int) * 60
          + ((59 : Nat) : Int) :=
  ⟨⟨by decide, by decide, by decide, by decide, by decide⟩,
    (parseUTCDate_counts_calendar_days (fun _ => 0)).1 4 2024 2 29 23 59 59 ".000Z"
      (by decide) (by decide) (by decide) (by decide) (by decide)⟩

/-- With exact arithmetic the second count is monotonic within a year: of
two valid written timestamps of the same year, the lexicographically smaller
one has the second count that is not larger. -/
theorem parseUTCDate_exact_monotone (past : Nat → Int)
    (y m₁ d₁ h₁ mi₁ s₁ m₂ d₂ h₂ mi₂ s₂ : Nat) (r₁ r₂ : String)
    (hy : y ≤ 9999)
    (hv₁ : Date.Valid ⟨y, m₁, d₁⟩) (hc₁ : validClock h₁ mi₁ s₁)
    (hv₂ : Date.Valid ⟨y, m₂, d₂⟩) (hc₂ : validClock h₂ mi₂ s₂)
    (hr₁ : startsWithDigit r₁ = false) (hr₂ : startsWithDigit r₂ = false)
    (hlt : isoStamp 4 y m₁ d₁ h₁ mi₁ s₁ r₁ < isoStamp 4 y m₂ d₂ h₂ mi₂ s₂ r₂) :
    parseUTCDate past (isoStamp 4 y m₁ d₁ h₁ mi₁ s₁ r₁)
      ≤ parseUTCDate past (isoStamp 4 y m₂ d₂ h₂ mi₂ s₂ r₂) := by
  have hml₁ := monthLength_le (y : Int) (m₁ : Int)
  have hml₂ := monthLength_le (y : Int) (m₂ : Int)
  obtain ⟨ha1, ha12, hda1, hdal⟩ := hv₁
  obtain ⟨hb1, hb12, hdb1, hdbl⟩ := hv₂
  simp only at ha1 ha12 hda1 hdal hb1 hb12 hdb1 hdbl
  obtain ⟨hh0₁, hh₁, hmi0₁, hmi₁, hs0₁, hs₁⟩ := hc₁
  obtain ⟨hh0₂, hh₂, hmi0₂, hmi₂, hs0₂, hs₂⟩ := hc₂
  have hyw : y < 10 ^ (3 + 1) := by norm_num; omega
  have hlex := isoStamp_lex 4 y m₁ d₁ h₁ mi₁ s₁ m₂ d₂ h₂ mi₂ s₂ r₁ r₂ (by omega) (by omega)
    (by omega) (by omega) (by omega) (by omega) (by omega) (by omega) (by omega) (by omega) hlt
  rw [parseUTCDate_isoStamp past 3 y m₁ d₁ h₁ mi₁ s₁ r₁ hyw (by omega) (by omega) (by omega)
      (by omega) (by omega) hr₁,
    parseUTCDate_isoStamp past 3 y m₂ d₂ h₂ mi₂ s₂ r₂ hyw (by omega) (by omega) (by omega)
      (by omega) (by omega) hr₂, epochSeconds_eq, epochSeconds_eq,
    dayNumber_mk past y m₁ d₁ ha1 ha12, dayNumber_mk past y m₂ d₂ hb1 hb12]
  rcases hlex with hm | ⟨hm, hlex⟩
  · have := dayOfYear_lt (y : Int) m₁ d₁ m₂ d₂ ha1 (by exact_mod_cast hm) hb12 hdal hdb1
    omega
  · subst hm
    rcases hlex with hd | ⟨hd, hlex⟩
    · omega
    · subst hd
      rcases hlex with hh | ⟨hh, hlex⟩
      · omega
      · subst hh
        rcases hlex with hmi | ⟨hmi, hs⟩
        · omega
        · subst hmi
          omega

/-! ## The 32-bit arithmetic of `parseUTCDate` -/

theorem toInt32_add_left (a b : Int) : toInt32 (toInt32 a + b) = toInt32 (a + b) := by
  unfold toInt32; omega

theorem toInt32_of_range (a : Int) (h0 : -2147483648 ≤ a) (h1 : a < 2147483648) :
    toInt32 a = a := by
  unfold toInt32; omega

theorem toInt32_range (a : Int) : -2147483648 ≤ toInt32 a ∧ toInt32 a < 2147483648 := by
  unfold toInt32; omega

theorem yearFold32 (n : Nat) :
    (List.range n).foldl (fun (days : Int) (i : Nat) =>
        toInt32 (days + (if isLeap (1970 + (i : Int)) then 366 else 365))) 0
      = toInt32 ((List.range n).foldl (fun (days : Int) (i : Nat) =>
        days + (if isLeap (1970 + (i : Int)) then 366 else 365)) 0) := by
  induction n with
  | zero => rfl
  | succ n ih =>
    rw [List.range_succ, List.foldl_append, List.foldl_append]
    simp only [List.foldl_cons, List.foldl_nil]
    rw [ih, toInt32_add_left]

theorem yearLoop32_eq (year : Int) : yearLoop32 year = toInt32 (yearLoop year) :=
  yearFold32 _

theorem monthFold32 (past : Nat → Int) (leap : Bool) (a : Int) (n : Nat) :
    (List.range n).foldl (fun (days : Int) (i : Nat) =>
        let days := toInt32 (days + dimAt past i)
        if i + 1 == 2 && leap then toInt32 (days + 1) else days) (toInt32 a)
      = toInt32 ((List.range n).foldl (fun (days : Int) (i : Nat) =>
        let days := days + dimAt past i
        if i + 1 == 2 && leap then days + 1 else days) a) := by
  induction n with
  | zero => rfl
  | succ n ih =>
    rw [List.range_succ, List.foldl_append, List.foldl_append]
    simp only [List.foldl_cons, List.foldl_nil]
    rw [ih]
    dsimp only
    split_ifs <;> (unfold toInt32; omega)

theorem monthLoop32_eq (past : Nat → Int) (leap : Bool) (mon a : Int) :
    monthLoop32 past leap mon (toInt32 a) = toInt32 (monthLoop past leap mon a) :=
  monthFold32 past leap a _

/-- The 32-bit arithmetic returns the exact second count reduced to 32 bits. -/
theorem epochSeconds32_eq (past : Nat → Int) (y m d h mi s : Int) :
    epochSeconds32 past y m d h mi s = toInt32 (epochSeconds past y m d h mi s) := by
  unfold epochSeconds32 epochSeconds
  simp only
  rw [yearLoop32_eq, monthLoop32_eq]
  generalize monthLoop past (isLeap y) m (yearLoop y) = M
  unfold toInt32
  omega

/-- On a written timestamp whose year fits an `int`, the target's
`parseUTCDate` is the exact second count reduced to 32 bits. -/
theorem parseUTCDate32_isoStamp (past : Nat → Int) (w y m d h mi s : Nat) (rest : String)
    (hy : y < 10 ^ (w + 1)) (hint : y < 2147483648)
    (hm : m < 100) (hd : d < 100) (hh : h < 100) (hmi : mi < 100) (hs : s < 100)
    (hrest : startsWithDigit rest = false) :
    parseUTCDate32 past (isoStamp (w + 1) y m d h mi s rest)
      = toInt32 (parseUTCDate past (isoStamp (w + 1) y m d h mi s rest)) := by
  have e1 := parseUTCDate_isoStamp past w y m d h mi s rest hy hm hd hh hmi hs hrest
  have e2 := sscanf_isoStamp w y m d h mi s rest hy hm hd hh hmi hs hrest
  clear hy
  have ry : toInt32 (y : Int) = y := toInt32_of_range _ (by omega) (by omega)
  have rm : toInt32 (m : Int) = m := toInt32_of_range _ (by omega) (by omega)
  have rd : toInt32 (d : Int) = d := toInt32_of_range _ (by omega) (by omega)
  have rh : toInt32 (h : Int) = h := toInt32_of_range _ (by omega) (by omega)
  have rmi : toInt32 (mi : Int) = mi := toInt32_of_range _ (by omega) (by omega)
  have rs : toInt32 (s : Int) = s := toInt32_of_range _ (by omega) (by omega)
  rw [e1, ← epochSeconds32_eq]
  unfold parseUTCDate32
  rw [e2]
  simp only [List.map_cons, List.map_nil, List.getD_cons_zero, List.getD_cons_succ,
    ry, rm, rd, rh, rmi, rs]

/-- The year loop in closed form: 365 days a year and the leap days of the
years from 1970 up to the year before. -/
theorem yearLoop_closed (y : Int) (hy : 1970 ≤ y) :
    yearLoop y = 365 * (y - 1970) + ((y - 1) / 4 - (y - 1) / 100 + (y - 1) / 400 - 477) := by
  obtain ⟨n, rfl⟩ : ∃ n : Nat, y = 1970 + n := ⟨(y - 1970).toNat, by omega⟩
  induction n with
  | zero => simp [yearLoop_base]
  | succ n ih =>
    have h := yearLoop_succ (1970 + (n : Int)) (by omega)
    have h3 : (1970 : Int) + ((n + 1 : Nat) : Int) = 1970 + (n : Int) + 1 := by push_cast; ring
    rw [h3, h, ih (by omega)]
    unfold yearLength
    cases hl : isLeap (1970 + (n : Int))
    · simp only [isLeap, Bool.and_eq_false_iff, Bool.or_eq_false_iff, beq_eq_false_iff_ne,
        bne_eq_false_iff_eq, ne_eq] at hl
      simp only [Bool.false_eq_true, if_false]
      omega
    · simp only [isLeap, Bool.and_eq_true, Bool.or_eq_true, beq_iff_eq, bne_iff_ne, ne_eq] at hl
      simp only [if_true]
      omega

theorem yearLoop_le_2037 (y : Int) (hy : y ≤ 2037) : yearLoop y ≤ 24472 := by
  have h2037 : yearLoop 2037 = 24472 := by
    rw [yearLoop_closed 2037 (by decide)]
    decide
  by_cases h70 : 1970 ≤ y
  · by_cases heq : y = 2037
    · rw [heq, h2037]
    · obtain ⟨k, hk⟩ : ∃ k : Nat, (2037 : Int) = y + 1 + k := ⟨(2036 - y).toNat, by omega⟩
      have h := yearLoop_step_le y h70 k
      rw [← hk, h2037] at h
      have : 0 ≤ yearLength y := by unfold yearLength; split <;> omega
      omega
  · have : (y - 1970).toNat = 0 := by omega
    simp [yearLoop, this]

/-- With exact arithmetic, the second count of a valid timestamp of a year
up to 2037 fits 32 bits. -/
theorem epochSeconds_fits (past : Nat → Int) (y m d h mi s : Int) (hy : y ≤ 2037)
    (hv : Date.Valid ⟨y, m, d⟩) (hc : validClock h mi s) :
    0 ≤ epochSeconds past y m d h mi s ∧ epochSeconds past y m d h mi s < 2147483648 := by
  obtain ⟨hh0, hh, hmi0, hmi, hs0, hs⟩ := hc
  rw [epochSeconds_eq, dayNumber_mk past y m d hv.1 hv.2.1]
  have h1 := yearLoop_nonneg y
  have h2 := yearLoop_le_2037 y hy
  obtain ⟨h3, h4⟩ := dayOfYear_bounds ⟨y, m, d⟩ hv
  simp only at h3 h4
  have h5 : yearLength y ≤ 366 := by unfold yearLength; split <;> omega
  constructor <;> omega

/-- The target's `parseUTCDate` on a written timestamp of a year from 1970
to 9999, in closed form. -/
theorem parseUTCDate32_value (past : Nat → Int) (y m d h mi s : Nat)
    (hy0 : 1970 ≤ y) (hy : y ≤ 9999) (hm1 : 1 ≤ m) (hm : m ≤ 12) (hd : d < 100)
    (hh : h < 100) (hmi : mi < 100) (hs : s < 100) :
    parseUTCDate32 past (isoStamp 4 y m d h mi s "")
      = toInt32 ((365 * ((y : Int) - 1970)
          + (((y : Int) - 1) / 4 - ((y : Int) - 1) / 100 + ((y : Int) - 1) / 400 - 477)
          + daysBeforeMonth (isLeap (y : Int)) (m : Int) + ((d : Int) - 1)) * 86400
          + (h : Int) * 3600 + (mi : Int) * 60 + (s : Int)) := by
  have hyw : y < 10 ^ (3 + 1) := by norm_num; omega
  have e : parseUTCDate32 past (isoStamp 4 y m d h mi s "")
      = toInt32 (parseUTCDate past (isoStamp 4 y m d h mi s "")) :=
    parseUTCDate32_isoStamp past 3 y m d h mi s "" hyw (by omega) (by omega) hd hh hmi hs rfl
  have x : parseUTCDate past (isoStamp 4 y m d h mi s "") = epochSeconds past y m d h mi s :=
    parseUTCDate_isoStamp past 3 y m d h mi s "" hyw (by omega) hd hh hmi hs rfl
  rw [e, x, epochSeconds_eq, dayNumber_mk past y m d (by omega) (by omega),
    yearLoop_closed (y : Int) (by omega)]

/-- With exact arithmetic, March 1st is February's length after February 1st. -/
theorem epochSeconds_february (past : Nat → Int) (y : Int) :
    epochSeconds past y 3 1 0 0 0 - epochSeconds past y 2 1 0 0 0
      = if gregorianLeap y then 29 * 86400 else 28 * 86400 := by
  rw [epochSeconds_eq, epochSeconds_eq, dayNumber_mk past y 3 1 (by decide) (by decide),
    dayNumber_mk past y 2 1 (by decide) (by decide)]
  have h := daysBeforeMonth_succ y 2 (by decide) (by decide)
  have h3 : (3 : Int) = 2 + 1 := rfl
  rw [h3, h]
  unfold monthLength
  simp only [if_true]
  split_ifs <;> ring

/-! ## The timestamp parser on the target: claims C2, C3 -/

/-- C2, amended. On the target's 32-bit `long`, for every year `Y` from 1970
on that fits an `int`, the parsed instant of `Y-03-01T00:00:00` minus that of
`Y-02-01T00:00:00` is 29 days in seconds when `Y` is a Gregorian leap year and
28 days in seconds otherwise, for every `Y` up to 2037 and whenever the
February instant is not above the March instant (the 32-bit second count did
not wrap in between); in the remaining case it is that amount less `2^32`.
For 2024 the difference is 29 days in seconds. -/
theorem parseUTCDate32_february_span (past : Nat → Int) :
    (∀ (w y : Nat) (rest₁ rest₂ : String), 1970 ≤ y → y < 10 ^ w → y < 2147483648 →
      startsWithDigit rest₁ = false → startsWithDigit rest₂ = false →
      (y ≤ 2037 →
        parseUTCDate32 past (isoStamp w y 3 1 0 0 0 rest₁)
          - parseUTCDate32 past (isoStamp w y 2 1 0 0 0 rest₂)
          = if gregorianLeap (y : Int) then 29 * 86400 else 28 * 86400) ∧
      (parseUTCDate32 past (isoStamp w y 2 1 0 0 0 rest₂)
          ≤ parseUTCDate32 past (isoStamp w y 3 1 0 0 0 rest₁) →
        parseUTCDate32 past (isoStamp w y 3 1 0 0 0 rest₁)
          - parseUTCDate32 past (isoStamp w y 2 1 0 0 0 rest₂)
          = if gregorianLeap (y : Int) then 29 * 86400 else 28 * 86400) ∧
      (parseUTCDate32 past (isoStamp w y 3 1 0 0 0 rest₁)
          - parseUTCDate32 past (isoStamp w y 2 1 0 0 0 rest₂)
          = (if gregorianLeap (y : Int) then 29 * 86400 else 28 * 86400) ∨
       parseUTCDate32 past (isoStamp w y 3 1 0 0 0 rest₁)
          - parseUTCDate32 past (isoStamp w y 2 1 0 0 0 rest₂)
          = (if gregorianLeap (y : Int) then 29 * 86400 else 28 * 86400) - 4294967296)) ∧
    parseUTCDate32 past "2024-03-01T00:00:00.000Z"
      - parseUTCDate32 past "2024-02-01T00:00:00.000Z" = 29 * 86400 := by
  have main : ∀ (w y : Nat) (rest₁ rest₂ : String), 1970 ≤ y → y < 10 ^ w →
      y < 2147483648 → startsWithDigit rest₁ = false → startsWithDigit rest₂ = false →
      (y ≤ 2037 →
        parseUTCDate32 past (isoStamp w y 3 1 0 0 0 rest₁)
          - parseUTCDate32 past (isoStamp w y 2 1 0 0 0 rest₂)
          = if gregorianLeap (y : Int) then 29 * 86400 else 28 * 86400) ∧
      (parseUTCDate32 past (isoStamp w y 2 1 0 0 0 rest₂)
          ≤ parseUTCDate32 past (isoStamp w y 3 1 0 0 0 rest₁) →
        parseUTCDate32 past (isoStamp w y 3 1 0 0 0 rest₁)
          - parseUTCDate32 past (isoStamp w y 2 1 0 0 0 rest₂)
          = if gregorianLeap (y : Int) then 29 * 86400 else 28 * 86400) ∧
      (parseUTCDate32 past (isoStamp w y 3 1 0 0 0 rest₁)
          - parseUTCDate32 past (isoStamp w y 2 1 0 0 0 rest₂)
          = (if gregorianLeap (y : Int) then 29 * 86400 else 28 * 86400) ∨
       parseUTCDate32 past (isoStamp w y 3 1 0 0 0 rest₁)
          - parseUTCDate32 past (isoStamp w y 2 1 0 0 0 rest₂)
          = (if gregorianLeap (y : Int) then 29 * 86400 else 28 * 86400) - 4294967296) := by
    intro w y rest₁ rest₂ hy hw hint hr₁ hr₂
    obtain ⟨w, rfl⟩ : ∃ v, w = v + 1 := by
      cases w with
      | zero => simp at hw; omega
      | succ v => exact ⟨v, rfl⟩
    rw [parseUTCDate32_isoStamp past w y 3 1 0 0 0 rest₁ hw hint (by decide) (by decide)
        (by decide) (by decide) (by decide) hr₁,
      parseUTCDate32_isoStamp past w y 2 1 0 0 0 rest₂ hw hint (by decide) (by decide)
        (by decide) (by decide) (by decide) hr₂,
      parseUTCDate_isoStamp past w y 3 1 0 0 0 rest₁ hw (by decide) (by decide) (by decide)
        (by decide) (by decide) hr₁,
      parseUTCDate_isoStamp past w y 2 1 0 0 0 rest₂ hw (by decide) (by decide) (by decide)
        (by decide) (by decide) hr₂]
    have hdiff := epochSeconds_february past (y : Int)
    have hD : (if gregorianLeap (y : Int) then (29 * 86400 : Int) else 28 * 86400) = 2505600 ∨
        (if gregorianLeap (y : Int) then (29 * 86400 : Int) else 28 * 86400) = 2419200 := by
      split_ifs
      · left; norm_num
      · right; norm_num
    have e3 : ((3 : Nat) : Int) = 3 := rfl
    have e2 : ((2 : Nat) : Int) = 2 := rfl
    have e1 : ((1 : Nat) : Int) = 1 := rfl
    have e0 : ((0 : Nat) : Int) = 0 := rfl
    rw [e3, e2, e1, e0]
    generalize (if gregorianLeap (y : Int) then (29 * 86400 : Int) else 28 * 86400) = D
      at hdiff hD ⊢
    refine ⟨?_, ?_, ?_⟩
    · intro h2037
      have hv3 : Date.Valid ⟨(y : Int), 3, 1⟩ :=
        ⟨by show (1 : Int) ≤ 3; decide, by show (3 : Int) ≤ 12; decide, le_refl _, by
          have := monthLength_pos (y : Int) 3
          show (1 : Int) ≤ monthLength (y : Int) 3
          omega⟩
      have hv2 : Date.Valid ⟨(y : Int), 2, 1⟩ :=
        ⟨by show (1 : Int) ≤ 2; decide, by show (2 : Int) ≤ 12; decide, le_refl _, by
          have := monthLength_pos (y : Int) 2
          show (1 : Int) ≤ monthLength (y : Int) 2
          omega⟩
      have f3 := epochSeconds_fits past y 3 1 0 0 0 (by exact_mod_cast h2037) hv3 (by decide)
      have f2 := epochSeconds_fits past y 2 1 0 0 0 (by exact_mod_cast h2037) hv2 (by decide)
      rw [toInt32_of_range _ (by omega) f3.2, toInt32_of_range _ (by omega) f2.2]
      exact hdiff
    · generalize epochSeconds past (y : Int) 3 1 0 0 0 = a at hdiff ⊢
      generalize epochSeconds past (y : Int) 2 1 0 0 0 = b at hdiff ⊢
      unfold toInt32
      omega
    · generalize epochSeconds past (y : Int) 3 1 0 0 0 = a at hdiff ⊢
      generalize epochSeconds past (y : Int) 2 1 0 0 0 = b at hdiff ⊢
      unfold toInt32
      omega
  refine ⟨main, ?_⟩
  have h := (main 4 2024 ".000Z" ".000Z" (by decide) (by decide) (by decide) (by decide)
    (by decide)).1 (by decide)
  have hleap : gregorianLeap ((2024 : Nat) : Int) := by decide
  rw [if_pos hleap] at h
  exact h

/-- C2, amended, at the year 2023, which is not a leap year: 28 days in
seconds. -/
theorem parseUTCDate32_february_span_witness :
    (1970 ≤ 2023 ∧ 2023 < 10 ^ 4 ∧ 2023 < 2147483648 ∧ startsWithDigit "" = false ∧
      2023 ≤ 2037) ∧
    parseUTCDate32 (fun _ => 0) (isoStamp 4 2023 3 1 0 0 0 "")
      - parseUTCDate32 (fun _ => 0) (isoStamp 4 2023 2 1 0 0 0 "")
      = if gregorianLeap ((2023 : Nat) : Int) then 29 * 86400 else 28 * 86400 :=
  ⟨⟨by decide, by decide, by decide, by decide, by decide⟩,
    ((parseUTCDate32_february_span (fun _ => 0)).1 4 2023 "" "" (by decide) (by decide)
      (by decide) (by decide) (by decide)).1 (by decide)⟩

/-- C2 as stated fails on the target: 2174 is a year from 1970 on and not a
leap year, the 32-bit second count wraps between its February 1st and its
March 1st, and the difference of the two results is not 28 days in seconds. -/
theorem parseUTCDate32_february_2174 :
    ((1970 : Int) ≤ 2174 ∧ ¬ gregorianLeap 2174) ∧
    parseUTCDate32 (fun _ => 0) "2174-02-01T00:00:00" = 2145375104 ∧
    parseUTCDate32 (fun _ => 0) "2174-03-01T00:00:00" = -2147172992 ∧
    parseUTCDate32 (fun _ => 0) "2174-03-01T00:00:00"
      - parseUTCDate32 (fun _ => 0) "2174-02-01T00:00:00" ≠ 28 * 86400 := by
  have ef : "2174-02-01T00:00:00" = isoStamp 4 2174 2 1 0 0 0 "" := by decide
  have em : "2174-03-01T00:00:00" = isoStamp 4 2174 3 1 0 0 0 "" := by decide
  have hf : parseUTCDate32 (fun _ => 0) "2174-02-01T00:00:00" = 2145375104 := by
    rw [ef, parseUTCDate32_value (fun _ => 0) 2174 2 1 0 0 0 (by decide) (by decide)
      (by decide) (by decide) (by decide) (by decide) (by decide) (by decide)]
    decide
  have hm : parseUTCDate32 (fun _ => 0) "2174-03-01T00:00:00" = -2147172992 := by
    rw [em, parseUTCDate32_value (fun _ => 0) 2174 3 1 0 0 0 (by decide) (by decide)
      (by decide) (by decide) (by decide) (by decide) (by decide) (by decide)]
    decide
  refine ⟨⟨by decide, by decide⟩, hf, hm, ?_⟩
  rw [hf, hm]
  decide

/-- C3, amended. On the target's 32-bit `long`, `parseUTCDate` is monotonic
within a year for every year up to 2037, and for later years as long as the
exact second counts of the two timestamps lie in one window of `2^32`
seconds (no wrap in between): for two valid timestamps of the shape
`YYYY-MM-DDTHH:MM:SS` (zero-padded fields; each may carry a tail that does
not begin with a digit) with the same year, if the first is
lexicographically smaller than the second then its parsed instant is not
larger. The exact second counts are always in order, and the parsed instants
are their reductions to 32 bits. -/
theorem parseUTCDate32_monotone_within_year (past : Nat → Int)
    (y m₁ d₁ h₁ mi₁ s₁ m₂ d₂ h₂ mi₂ s₂ : Nat) (r₁ r₂ : String)
    (hy : y ≤ 9999)
    (hv₁ : Date.Valid ⟨y, m₁, d₁⟩) (hc₁ : validClock h₁ mi₁ s₁)
    (hv₂ : Date.Valid ⟨y, m₂, d₂⟩) (hc₂ : validClock h₂ mi₂ s₂)
    (hr₁ : startsWithDigit r₁ = false) (hr₂ : startsWithDigit r₂ = false)
    (hlt : isoStamp 4 y m₁ d₁ h₁ mi₁ s₁ r₁ < isoStamp 4 y m₂ d₂ h₂ mi₂ s₂ r₂) :
    (y ≤ 2037 →
      parseUTCDate32 past (isoStamp 4 y m₁ d₁ h₁ mi₁ s₁ r₁)
        ≤ parseUTCDate32 past (isoStamp 4 y m₂ d₂ h₂ mi₂ s₂ r₂)) ∧
    (∀ k : Int,
      k * 4294967296 - 2147483648 ≤ parseUTCDate past (isoStamp 4 y m₁ d₁ h₁ mi₁ s₁ r₁) →
      parseUTCDate past (isoStamp 4 y m₂ d₂ h₂ mi₂ s₂ r₂) < k * 4294967296 + 2147483648 →
      parseUTCDate32 past (isoStamp 4 y m₁ d₁ h₁ mi₁ s₁ r₁)
        ≤ parseUTCDate32 past (isoStamp 4 y m₂ d₂ h₂ mi₂ s₂ r₂)) ∧
    (parseUTCDate past (isoStamp 4 y m₁ d₁ h₁ mi₁ s₁ r₁)
        ≤ parseUTCDate past (isoStamp 4 y m₂ d₂ h₂ mi₂ s₂ r₂) ∧
      parseUTCDate32 past (isoStamp 4 y m₁ d₁ h₁ mi₁ s₁ r₁)
        = toInt32 (parseUTCDate past (isoStamp 4 y m₁ d₁ h₁ mi₁ s₁ r₁)) ∧
      parseUTCDate32 past (isoStamp 4 y m₂ d₂ h₂ mi₂ s₂ r₂)
        = toInt32 (parseUTCDate past (isoStamp 4 y m₂ d₂ h₂ mi₂ s₂ r₂))) := by
  have hexact := parseUTCDate_exact_monotone past y m₁ d₁ h₁ mi₁ s₁ m₂ d₂ h₂ mi₂ s₂ r₁ r₂
    hy hv₁ hc₁ hv₂ hc₂ hr₁ hr₂ hlt
  have hml₁ := monthLength_le (y : Int) (m₁ : Int)
  have hml₂ := monthLength_le (y : Int) (m₂ : Int)
  have hyw : y < 10 ^ (3 + 1) := by norm_num; omega
  have b₁ : m₁ < 100 ∧ d₁ < 100 ∧ h₁ < 100 ∧ mi₁ < 100 ∧ s₁ < 100 := by
    obtain ⟨_, a2, _, a4⟩ := hv₁
    obtain ⟨_, c2, _, c4, _, c6⟩ := hc₁
    simp only at a2 a4
    omega
  have b₂ : m₂ < 100 ∧ d₂ < 100 ∧ h₂ < 100 ∧ mi₂ < 100 ∧ s₂ < 100 := by
    obtain ⟨_, a2, _, a4⟩ := hv₂
    obtain ⟨_, c2, _, c4, _, c6⟩ := hc₂
    simp only at a2 a4
    omega
  have e₁ : parseUTCDate32 past (isoStamp 4 y m₁ d₁ h₁ mi₁ s₁ r₁)
      = toInt32 (parseUTCDate past (isoStamp 4 y m₁ d₁ h₁ mi₁ s₁ r₁)) :=
    parseUTCDate32_isoStamp past 3 y m₁ d₁ h₁ mi₁ s₁ r₁ hyw (by omega) b₁.1 b₁.2.1
      b₁.2.2.1 b₁.2.2.2.1 b₁.2.2.2.2 hr₁
  have e₂ : parseUTCDate32 past (isoStamp 4 y m₂ d₂ h₂ mi₂ s₂ r₂)
      = toInt32 (parseUTCDate past (isoStamp 4 y m₂ d₂ h₂ mi₂ s₂ r₂)) :=
    parseUTCDate32_isoStamp past 3 y m₂ d₂ h₂ mi₂ s₂ r₂ hyw (by omega) b₂.1 b₂.2.1
      b₂.2.2.1 b₂.2.2.2.1 b₂.2.2.2.2 hr₂
  have x₁ : parseUTCDate past (isoStamp 4 y m₁ d₁ h₁ mi₁ s₁ r₁)
      = epochSeconds past y m₁ d₁ h₁ mi₁ s₁ :=
    parseUTCDate_isoStamp past 3 y m₁ d₁ h₁ mi₁ s₁ r₁ hyw b₁.1 b₁.2.1
      b₁.2.2.1 b₁.2.2.2.1 b₁.2.2.2.2 hr₁
  have x₂ : parseUTCDate past (isoStamp 4 y m₂ d₂ h₂ mi₂ s₂ r₂)
      = epochSeconds past y m₂ d₂ h₂ mi₂ s₂ :=
    parseUTCDate_isoStamp past 3 y m₂ d₂ h₂ mi₂ s₂ r₂ hyw b₂.1 b₂.2.1
      b₂.2.2.1 b₂.2.2.2.1 b₂.2.2.2.2 hr₂
  have window : ∀ k : Int,
      k * 4294967296 - 2147483648 ≤ parseUTCDate past (isoStamp 4 y m₁ d₁ h₁ mi₁ s₁ r₁) →
      parseUTCDate past (isoStamp 4 y m₂ d₂ h₂ mi₂ s₂ r₂) < k * 4294967296 + 2147483648 →
      parseUTCDate32 past (isoStamp 4 y m₁ d₁ h₁ mi₁ s₁ r₁)
        ≤ parseUTCDate32 past (isoStamp 4 y m₂ d₂ h₂ mi₂ s₂ r₂) := by
    intro k hk₁ hk₂
    rw [e₁, e₂]
    generalize parseUTCDate past (isoStamp 4 y m₁ d₁ h₁ mi₁ s₁ r₁) = a at hexact hk₁ ⊢
    generalize parseUTCDate past (isoStamp 4 y m₂ d₂ h₂ mi₂ s₂ r₂) = b at hexact hk₂ ⊢
    unfold toInt32
    omega
  refine ⟨?_, window, hexact, e₁, e₂⟩
  intro h2037
  have f₁ := epochSeconds_fits past y m₁ d₁ h₁ mi₁ s₁ (by exact_mod_cast h2037) hv₁ hc₁
  have f₂ := epochSeconds_fits past y m₂ d₂ h₂ mi₂ s₂ (by exact_mod_cast h2037) hv₂ hc₂
  rw [← x₁] at f₁
  rw [← x₂] at f₂
  exact window 0 (by omega) (by omega)

/-- C3, amended, at 2024-02-29T23:59:59 and 2024-03-01T00:00:00. -/
theorem parseUTCDate32_monotone_within_year_witness :
    (2024 ≤ 9999 ∧ Date.Valid ⟨2024, 2, 29⟩ ∧ validClock 23 59 59 ∧
      Date.Valid ⟨2024, 3, 1⟩ ∧ validClock 0 0 0 ∧ startsWithDigit "" = false ∧
      isoStamp 4 2024 2 29 23 59 59 "" < isoStamp 4 2024 3 1 0 0 0 "" ∧ 2024 ≤ 2037) ∧
    parseUTCDate32 (fun _ => 0) (isoStamp 4 2024 2 29 23 59 59 "")
      ≤ parseUTCDate32 (fun _ => 0) (isoStamp 4 2024 3 1 0 0 0 "") :=
  ⟨⟨by decide, by decide, by decide, by decide, by decide, by decide,
      String.lt_iff_toList_lt.2 (by decide), by decide⟩,
    (parseUTCDate32_monotone_within_year (fun _ => 0) 2024 2 29 23 59 59 3 1 0 0 0 "" ""
      (by decide) (by decide) (by decide) (by decide) (by decide) (by decide) (by decide)
      (String.lt_iff_toList_lt.2 (by decide))).1 (by decide)⟩

/-- C3 as stated fails on the target: 2038-01-19T03:14:07 is lexicographically
below 2038-01-19T03:14:08, both are valid timestamps of the year 2038, and
the first parses to 2147483647 while the second wraps to -2147483648. -/
theorem parseUTCDate32_wraps_in_2038 :
    (Date.Valid ⟨2038, 1, 19⟩ ∧ validClock 3 14 7 ∧ validClock 3 14 8) ∧
    isoStamp 4 2038 1 19 3 14 7 "" = "2038-01-19T03:14:07" ∧
    isoStamp 4 2038 1 19 3 14 8 "" = "2038-01-19T03:14:08" ∧
    "2038-01-19T03:14:07" < "2038-01-19T03:14:08" ∧
    parseUTCDate32 (fun _ => 0) "2038-01-19T03:14:07" = 2147483647 ∧
    parseUTCDate32 (fun _ => 0) "2038-01-19T03:14:08" = -2147483648 ∧
    ¬ (parseUTCDate32 (fun _ => 0) "2038-01-19T03:14:07"
        ≤ parseUTCDate32 (fun _ => 0) "2038-01-19T03:14:08") := by
  have e7 : "2038-01-19T03:14:07" = isoStamp 4 2038 1 19 3 14 7 "" := by decide
  have e8 : "2038-01-19T03:14:08" = isoStamp 4 2038 1 19 3 14 8 "" := by decide
  have h7 : parseUTCDate32 (fun _ => 0) "2038-01-19T03:14:07" = 2147483647 := by
    rw [e7, parseUTCDate32_value (fun _ => 0) 2038 1 19 3 14 7 (by decide) (by decide)
      (by decide) (by decide) (by decide) (by decide) (by decide) (by decide)]
    decide
  have h8 : parseUTCDate32 (fun _ => 0) "2038-01-19T03:14:08" = -2147483648 := by
    rw [e8, parseUTCDate32_value (fun _ => 0) 2038 1 19 3 14 8 (by decide) (by decide)
      (by decide) (by decide) (by decide) (by decide) (by decide) (by decide)]
    decide
  refine ⟨⟨by decide, by decide, by decide⟩, e7.symm, e8.symm,
    String.lt_iff_toList_lt.2 (by decide), h7, h8, ?_⟩
  rw [h7, h8]
  decide

/-! ## The colour bands: claim C7 -/

/-- C7. With `PRICE_LOW = 10` and `PRICE_HIGH = 20`, `priceColour` puts
every price in exactly one band: green (LOW) iff the price is below 10, red
(HIGH) iff it is at least 20, amber (MID) iff it is in between; the three
colours differ; 9.99 is LOW, 10 is MID, 20 and 20.01 are HIGH. -/
theorem priceColour_bands :
    (PRICE_LOW = 10 ∧ PRICE_HIGH = 20) ∧
    (∀ p : ℚ, (priceColour p = green ↔ p < 10) ∧ (priceColour p = red ↔ 20 ≤ p) ∧
      (priceColour p = amber ↔ 10 ≤ p ∧ p < 20)) ∧
    (green ≠ amber ∧ amber ≠ red ∧ green ≠ red) ∧
    priceColour (999 / 100) = green ∧ priceColour 10 = amber ∧ priceColour 20 = red ∧
    priceColour (2001 / 100) = red := by
  have hga : green ≠ amber := by decide
  have har : amber ≠ red := by decide
  have hgr : green ≠ red := by decide
  have main : ∀ p : ℚ, (priceColour p = green ↔ p < 10) ∧ (priceColour p = red ↔ 20 ≤ p) ∧
      (priceColour p = amber ↔ 10 ≤ p ∧ p < 20) := by
    intro p
    unfold priceColour PRICE_LOW PRICE_HIGH
    by_cases h1 : p < 10
    · have h2 : ¬ (20 ≤ p) := by linarith
      simp only [h1, if_true, true_iff, h2, iff_false, not_le.mpr h1, false_and]
      exact ⟨trivial, hgr, hga⟩
    · by_cases h2 : p < 20
      · simp only [h1, h2, if_true, if_false, not_le.mpr h2, iff_false, not_lt.mp h1, true_and,
          iff_true]
        exact ⟨hga.symm, har, trivial⟩
      · simp only [h1, h2, if_false, not_lt.mp h2, iff_true, iff_false, and_false]
        exact ⟨hgr.symm, trivial, har.symm⟩
  refine ⟨⟨rfl, rfl⟩, main, ⟨hga, har, hgr⟩, ?_, ?_, ?_, ?_⟩
  · exact (main _).1.2 (by norm_num)
  · exact (main _).2.2.2 ⟨by norm_num, by norm_num⟩
  · exact (main _).2.1.2 (by norm_num)
  · exact (main _).2.1.2 (by norm_num)

/-! ## The loops of `fetchPrices` -/

theorem index_eq_iff (n : Nat) (i : Int) (h : 0 ≤ i ∧ i < n) (k : Fin n) :
    k = index n i h ↔ i = (k.val : Int) := by
  unfold index
  rw [Fin.ext_iff]
  simp only
  omega

theorem tomorrowOf_ne (today t : Tm) (h : sameDate t today = true) :
    sameDate t (tomorrowOf today) = false := by
  simp only [sameDate, Bool.and_eq_true, beq_iff_eq] at h
  obtain ⟨⟨hy, hm⟩, hd⟩ := h
  unfold tomorrowOf mktime
  simp only [sameDate, Bool.and_eq_false_iff, beq_eq_false_iff_ne, ne_eq]
  split_ifs <;> simp only <;> omega

theorem update_index_apply {α : Type} (n : Nat) (g : Fin n → α) (i : Int)
    (hi : 0 ≤ i ∧ i < n) (v : α) (k : Fin n) :
    Function.update g (index n i hi) v k = if i = (k.val : Int) then v else g k := by
  rw [Function.update_apply]
  simp only [index_eq_iff]

theorem accumulate_apply {α : Type} [AddMonoid α] (n : Nat) (g : Fin n → α) (i : Int)
    (hi : 0 ≤ i ∧ i < n) (v : α) (k : Fin n) :
    Function.update g (index n i hi) (g (index n i hi) + v) k
      = g k + (if i = (k.val : Int) then v else 0) := by
  rw [update_index_apply]
  by_cases h : i = (k.val : Int)
  · have hk : index n i hi = k := ((index_eq_iff n i hi k).2 h).symm
    rw [if_pos h, if_pos h, hk]
  · rw [if_neg h, if_neg h, add_zero]

theorem accumulate_skip {α : Type} [AddMonoid α] (n : Nat) (g : Fin n → α) (i : Int)
    (hi : ¬ (0 ≤ i ∧ i < n)) (v : α) (k : Fin n) :
    g k = g k + (if i = (k.val : Int) then v else 0) := by
  have hk := k.isLt
  have : ¬ i = (k.val : Int) := by omega
  simp [this]

theorem entryStep_eq (pf : Platform) (today tmr : Tm) (f : Frame) (e : Entry) :
    entryStep pf today tmr f e =
      match localOf pf e with
      | none => f
      | some t =>
        if sameDate t today then addHour t e.price (putSlot t e.price f)
        else if sameDate t tmr then tomorrowBranch t e.price f
        else f := by
  unfold entryStep localOf
  cases e.startDate <;> rfl

theorem putSlot_spec (t : Tm) (price : ℚ) (f : Frame) :
    (putSlot t price f).hourSum = f.hourSum ∧
    (putSlot t price f).hourCount = f.hourCount ∧
    (putSlot t price f).tmrSum = f.tmrSum ∧
    (putSlot t price f).tmrCount = f.tmrCount ∧
    (∀ i : Fin 96, (putSlot t price f).g.g_qhPrices i
        = if t.tm_hour * 4 + Int.tdiv t.tm_min 15 = (i.val : Int) then price
          else f.g.g_qhPrices i) ∧
    (putSlot t price f).g.g_prices = f.g.g_prices ∧
    (putSlot t price f).g.g_tmrPrices = f.g.g_tmrPrices ∧
    (putSlot t price f).g.g_hasTomorrow = f.g.g_hasTomorrow := by
  unfold putSlot
  by_cases hs : 0 ≤ t.tm_hour * 4 + Int.tdiv t.tm_min 15 ∧
      t.tm_hour * 4 + Int.tdiv t.tm_min 15 < (96 : Nat)
  · rw [dif_pos hs]
    refine ⟨rfl, rfl, rfl, rfl, ?_, rfl, rfl, rfl⟩
    intro i; exact update_index_apply 96 f.g.g_qhPrices _ hs price i
  · rw [dif_neg hs]
    refine ⟨rfl, rfl, rfl, rfl, ?_, rfl, rfl, rfl⟩
    intro i
    have hi := i.isLt
    have : ¬ t.tm_hour * 4 + Int.tdiv t.tm_min 15 = (i.val : Int) := by omega
    rw [if_neg this]

theorem addHour_spec (t : Tm) (price : ℚ) (f : Frame) :
    (∀ h : Fin 24, (addHour t price f).hourSum h
        = f.hourSum h + (if t.tm_hour = (h.val : Int) then price else 0)) ∧
    (∀ h : Fin 24, (addHour t price f).hourCount h
        = f.hourCount h + (if t.tm_hour = (h.val : Int) then 1 else 0)) ∧
    (addHour t price f).tmrSum = f.tmrSum ∧
    (addHour t price f).tmrCount = f.tmrCount ∧
    (addHour t price f).g = f.g := by
  unfold addHour
  by_cases hh : 0 ≤ t.tm_hour ∧ t.tm_hour < (24 : Nat)
  · rw [dif_pos hh]
    refine ⟨?_, ?_, rfl, rfl, rfl⟩
    · intro h; exact accumulate_apply 24 f.hourSum _ hh price h
    · intro h; exact accumulate_apply 24 f.hourCount _ hh 1 h
  · rw [dif_neg hh]
    refine ⟨?_, ?_, rfl, rfl, rfl⟩
    · intro h; exact accumulate_skip 24 f.hourSum _ hh price h
    · intro h; exact accumulate_skip 24 f.hourCount _ hh 1 h

theorem tomorrowBranch_spec (t : Tm) (price : ℚ) (f : Frame) :
    (∀ h : Fin 24, (tomorrowBranch t price f).tmrSum h
        = f.tmrSum h + (if t.tm_hour = (h.val : Int) then price else 0)) ∧
    (∀ h : Fin 24, (tomorrowBranch t price f).tmrCount h
        = f.tmrCount h + (if t.tm_hour = (h.val : Int) then 1 else 0)) ∧
    (tomorrowBranch t price f).hourSum = f.hourSum ∧
    (tomorrowBranch t price f).hourCount = f.hourCount ∧
    (tomorrowBranch t price f).g = f.g := by
  unfold tomorrowBranch
  by_cases hh : 0 ≤ t.tm_hour ∧ t.tm_hour < (24 : Nat)
  · rw [dif_pos hh]
    refine ⟨?_, ?_, rfl, rfl, rfl⟩
    · intro h; exact accumulate_apply 24 f.tmrSum _ hh price h
    · intro h; exact accumulate_apply 24 f.tmrCount _ hh 1 h
  · rw [dif_neg hh]
    refine ⟨?_, ?_, rfl, rfl, rfl⟩
    · intro h; exact accumulate_skip 24 f.tmrSum _ hh price h
    · intro h; exact accumulate_skip 24 f.tmrCount _ hh 1 h

/-- One entry's effect on the frame. -/
theorem entryStep_spec (pf : Platform) (today tmr : Tm) (f : Frame) (e : Entry)
    (hdiff : ∀ t, sameDate t today = true → sameDate t tmr = false) :
    (∀ h, (entryStep pf today tmr f e).hourSum h
        = f.hourSum h + (if inHour pf today h e then e.price else 0)) ∧
    (∀ h, (entryStep pf today tmr f e).hourCount h
        = f.hourCount h + (if inHour pf today h e then 1 else 0)) ∧
    (∀ h, (entryStep pf today tmr f e).tmrSum h
        = f.tmrSum h + (if inHour pf tmr h e then e.price else 0)) ∧
    (∀ h, (entryStep pf today tmr f e).tmrCount h
        = f.tmrCount h + (if inHour pf tmr h e then 1 else 0)) ∧
    (∀ i, (entryStep pf today tmr f e).g.g_qhPrices i
        = if inSlot pf today i e then e.price else f.g.g_qhPrices i) ∧
    (entryStep pf today tmr f e).g.g_prices = f.g.g_prices ∧
    (entryStep pf today tmr f e).g.g_tmrPrices = f.g.g_tmrPrices ∧
    (entryStep pf today tmr f e).g.g_hasTomorrow = f.g.g_hasTomorrow := by
  rw [entryStep_eq]
  unfold inHour inSlot
  cases localOf pf e with
  | none => simp
  | some t =>
    simp only
    by_cases htd : sameDate t today = true
    · have htm := hdiff t htd
      obtain ⟨b1, b2, b3, b4, b5, b6, b7, b8⟩ := putSlot_spec t e.price f
      obtain ⟨a1, a2, a3, a4, a5⟩ := addHour_spec t e.price (putSlot t e.price f)
      simp only [htd, htm, if_true, Bool.true_and, Bool.false_and, Bool.false_eq_true, if_false,
        add_zero, beq_iff_eq]
      exact ⟨fun h => by rw [a1, b1], fun h => by rw [a2, b2], fun h => by rw [a3, b3],
        fun h => by rw [a4, b4], fun i => by rw [a5, b5], by rw [a5, b6], by rw [a5, b7],
        by rw [a5, b8]⟩
    · have htd : sameDate t today = false := by simpa using htd
      simp only [htd, Bool.false_and, Bool.false_eq_true, if_false, add_zero]
      by_cases htm : sameDate t tmr = true
      · obtain ⟨a1, a2, a3, a4, a5⟩ := tomorrowBranch_spec t e.price f
        simp only [htm, if_true, Bool.true_and, beq_iff_eq]
        exact ⟨fun h => by rw [a3], fun h => by rw [a4], a1, a2, fun i => by rw [a5],
          by rw [a5], by rw [a5], by rw [a5]⟩
      · have htm : sameDate t tmr = false := by simpa using htm
        simp [htm]

/-- The effect of the loop over the entries on a frame. -/
theorem entries_fold (pf : Platform) (today tmr : Tm)
    (hdiff : ∀ t, sameDate t today = true → sameDate t tmr = false) (arr : List Entry) :
    ∀ f : Frame,
    (∀ h, (arr.foldl (entryStep pf today tmr) f).hourSum h
        = f.hourSum h + (pricesOf (inHour pf today h) arr).sum) ∧
    (∀ h, (arr.foldl (entryStep pf today tmr) f).hourCount h
        = f.hourCount h + ((pricesOf (inHour pf today h) arr).length : Int)) ∧
    (∀ h, (arr.foldl (entryStep pf today tmr) f).tmrSum h
        = f.tmrSum h + (pricesOf (inHour pf tmr h) arr).sum) ∧
    (∀ h, (arr.foldl (entryStep pf today tmr) f).tmrCount h
        = f.tmrCount h + ((pricesOf (inHour pf tmr h) arr).length : Int)) ∧
    (∀ i, (arr.foldl (entryStep pf today tmr) f).g.g_qhPrices i
        = ((pricesOf (inSlot pf today i) arr).getLast?).getD (f.g.g_qhPrices i)) ∧
    (arr.foldl (entryStep pf today tmr) f).g.g_prices = f.g.g_prices ∧
    (arr.foldl (entryStep pf today tmr) f).g.g_tmrPrices = f.g.g_tmrPrices ∧
    (arr.foldl (entryStep pf today tmr) f).g.g_hasTomorrow = f.g.g_hasTomorrow := by
  induction arr with
  | nil => intro f; simp [pricesOf]
  | cons e es ih =>
    intro f
    obtain ⟨a1, a2, a3, a4, a5, a6, a7, a8⟩ := entryStep_spec pf today tmr f e hdiff
    obtain ⟨b1, b2, b3, b4, b5, b6, b7, b8⟩ := ih (entryStep pf today tmr f e)
    rw [List.foldl_cons]
    refine ⟨?_, ?_, ?_, ?_, ?_, by rw [b6, a6], by rw [b7, a7], by rw [b8, a8]⟩
    · intro h
      rw [b1, a1]
      by_cases hp : inHour pf today h e = true
      · simp [pricesOf, List.filter_cons, hp, add_assoc]
      · simp [pricesOf, List.filter_cons, hp]
    · intro h
      rw [b2, a2]
      by_cases hp : inHour pf today h e = true
      · simp [pricesOf, List.filter_cons, hp]; ring
      · simp [pricesOf, List.filter_cons, hp]
    · intro h
      rw [b3, a3]
      by_cases hp : inHour pf tmr h e = true
      · simp [pricesOf, List.filter_cons, hp, add_assoc]
      · simp [pricesOf, List.filter_cons, hp]
    · intro h
      rw [b4, a4]
      by_cases hp : inHour pf tmr h e = true
      · simp [pricesOf, List.filter_cons, hp]; ring
      · simp [pricesOf, List.filter_cons, hp]
    · intro i
      rw [b5, a5]
      by_cases hp : inSlot pf today i e = true
      · simp [pricesOf, List.filter_cons, hp, List.getLast?_cons]
      · simp [pricesOf, List.filter_cons, hp]

theorem finalStep_spec (f : Frame) (h : Fin 24) :
    (finalStep f h).hourSum = f.hourSum ∧
    (finalStep f h).hourCount = f.hourCount ∧
    (finalStep f h).tmrSum = f.tmrSum ∧
    (finalStep f h).tmrCount = f.tmrCount ∧
    (finalStep f h).g.g_qhPrices = f.g.g_qhPrices ∧
    (∀ k, (finalStep f h).g.g_prices k = if k = h then average f k else f.g.g_prices k) ∧
    (∀ k, (finalStep f h).g.g_tmrPrices k
        = if k = h ∧ f.tmrCount k > 0 then f.tmrSum k / (f.tmrCount k : ℚ)
          else f.g.g_tmrPrices k) ∧
    (finalStep f h).g.g_hasTomorrow = (f.g.g_hasTomorrow || decide (f.tmrCount h > 0)) := by
  unfold finalStep
  by_cases hc : f.tmrCount h > 0
  · simp only [hc, if_true]
    refine ⟨trivial, trivial, trivial, trivial, trivial, ?_, ?_, by simp⟩
    · intro k
      rw [Function.update_apply]
      by_cases hk : k = h
      · subst hk; simp [average]
      · simp [hk]
    · intro k
      rw [Function.update_apply]
      by_cases hk : k = h
      · subst hk; simp [hc]
      · simp [hk]
  · simp only [hc, if_false]
    refine ⟨trivial, trivial, trivial, trivial, trivial, ?_, ?_, by simp⟩
    · intro k
      rw [Function.update_apply]
      by_cases hk : k = h
      · subst hk; simp [average]
      · simp [hk]
    · intro k
      by_cases hk : k = h
      · subst hk; simp [hc]
      · simp [hk]

/-- The effect of the final loop, run over any list of hours. -/
theorem final_fold (l : List (Fin 24)) : ∀ f : Frame,
    ((l.foldl finalStep f).hourSum = f.hourSum ∧
     (l.foldl finalStep f).hourCount = f.hourCount ∧
     (l.foldl finalStep f).tmrSum = f.tmrSum ∧
     (l.foldl finalStep f).tmrCount = f.tmrCount) ∧
    (l.foldl finalStep f).g.g_qhPrices = f.g.g_qhPrices ∧
    (∀ k, (l.foldl finalStep f).g.g_prices k
        = if k ∈ l then average f k else f.g.g_prices k) ∧
    (∀ k, (l.foldl finalStep f).g.g_tmrPrices k
        = if k ∈ l ∧ f.tmrCount k > 0 then f.tmrSum k / (f.tmrCount k : ℚ)
          else f.g.g_tmrPrices k) ∧
    (l.foldl finalStep f).g.g_hasTomorrow
        = (f.g.g_hasTomorrow || l.any (fun k => decide (f.tmrCount k > 0))) := by
  induction l with
  | nil => intro f; simp
  | cons h t ih =>
    intro f
    obtain ⟨a1, a2, a3, a4, a5, a6, a7, a8⟩ := finalStep_spec f h
    obtain ⟨⟨b1, b2, b3, b4⟩, b5, b6, b7, b8⟩ := ih (finalStep f h)
    rw [List.foldl_cons]
    refine ⟨⟨by rw [b1, a1], by rw [b2, a2], by rw [b3, a3], by rw [b4, a4]⟩, by rw [b5, a5],
      ?_, ?_, ?_⟩
    · intro k
      rw [b6, a6]
      have hav : average (finalStep f h) k = average f k := by
        unfold average; rw [a1, a2]
      rw [hav]
      by_cases hk : k = h
      · simp [hk]
      · by_cases hm : k ∈ t
        · simp [hm]
        · simp [hk, hm]
    · intro k
      rw [b7, a7, a3, a4]
      by_cases hk : k = h
      · subst hk
        by_cases hc : f.tmrCount k > 0
        · simp [hc]
        · simp [hc]
      · by_cases hm : k ∈ t
        · simp [hm, hk]
        · simp [hk, hm]
    · rw [b8, a8, a4]
      simp [List.any_cons, Bool.or_assoc]

theorem mean_eq (l : List ℚ) :
    (if ((l.length : Nat) : Int) > 0 then l.sum / (((l.length : Nat) : Int) : ℚ) else 0)
      = mean l := by
  unfold mean
  cases l with
  | nil => simp
  | cons a t =>
    have : (((a :: t).length : Nat) : Int) > 0 := by simp
    rw [if_pos this, if_neg (List.cons_ne_nil a t)]
    simp

/-- The globals after a successful aggregation, slot by slot. -/
theorem aggregate_spec (pf : Platform) (now : Int) (arr : List Entry) :
    (∀ h, (aggregate pf now arr).g_prices h
        = mean (pricesOf (inHour pf (pf.localtime_r now) h) arr)) ∧
    (∀ h, (aggregate pf now arr).g_tmrPrices h
        = mean (pricesOf (inHour pf (tomorrowOf (pf.localtime_r now)) h) arr)) ∧
    (∀ i, (aggregate pf now arr).g_qhPrices i
        = ((pricesOf (inSlot pf (pf.localtime_r now) i) arr).getLast?).getD 0) ∧
    ((aggregate pf now arr).g_hasTomorrow = true ↔
      ∃ h : Fin 24, pricesOf (inHour pf (tomorrowOf (pf.localtime_r now)) h) arr ≠ []) := by
  obtain ⟨a1, a2, a3, a4, a5, a6, a7, a8⟩ :=
    entries_fold pf (pf.localtime_r now) (tomorrowOf (pf.localtime_r now))
      (tomorrowOf_ne (pf.localtime_r now)) arr clearedFrame
  obtain ⟨⟨b1, b2, b3, b4⟩, b5, b6, b7, b8⟩ :=
    final_fold (List.finRange 24)
      (arr.foldl (entryStep pf (pf.localtime_r now) (tomorrowOf (pf.localtime_r now)))
        clearedFrame)
  unfold aggregate
  simp only
  generalize arr.foldl (entryStep pf (pf.localtime_r now) (tomorrowOf (pf.localtime_r now)))
    clearedFrame = F at a1 a2 a3 a4 a5 a6 a7 a8 b1 b2 b3 b4 b5 b6 b7 b8 ⊢
  have c1 : ∀ h, F.hourSum h = (pricesOf (inHour pf (pf.localtime_r now) h) arr).sum := by
    intro h; rw [a1]; simp [clearedFrame]
  have c2 : ∀ h, F.hourCount h
      = ((pricesOf (inHour pf (pf.localtime_r now) h) arr).length : Int) := by
    intro h; rw [a2]; simp [clearedFrame]
  have c3 : ∀ h, F.tmrSum h
      = (pricesOf (inHour pf (tomorrowOf (pf.localtime_r now)) h) arr).sum := by
    intro h; rw [a3]; simp [clearedFrame]
  have c4 : ∀ h, F.tmrCount h
      = ((pricesOf (inHour pf (tomorrowOf (pf.localtime_r now)) h) arr).length : Int) := by
    intro h; rw [a4]; simp [clearedFrame]
  refine ⟨?_, ?_, ?_, ?_⟩
  · intro h
    rw [b6, if_pos (List.mem_finRange h)]
    unfold average
    rw [c1, c2]
    exact mean_eq _
  · intro h
    rw [b7, c3, c4, a7, ← mean_eq]
    by_cases hc : ((pricesOf (inHour pf (tomorrowOf (pf.localtime_r now)) h) arr).length : Int) > 0
    · rw [if_pos ⟨List.mem_finRange h, hc⟩, if_pos hc]
    · rw [if_neg (fun hh => hc hh.2), if_neg hc]
      rfl
  · intro i
    rw [b5, a5]
    rfl
  · rw [b8, a8]
    have hfalse : clearedFrame.g.g_hasTomorrow = false := rfl
    rw [hfalse]
    simp only [Bool.false_or, List.any_eq_true, List.mem_finRange, true_and,
      decide_eq_true_eq]
    constructor
    · rintro ⟨h, hh⟩
      refine ⟨h, ?_⟩
      rw [c4] at hh
      intro hnil
      rw [hnil] at hh
      simp at hh
    · rintro ⟨h, hh⟩
      refine ⟨h, ?_⟩
      rw [c4]
      have : 0 < (pricesOf (inHour pf (tomorrowOf (pf.localtime_r now)) h) arr).length :=
        List.length_pos.mpr hh
      exact_mod_cast this

theorem fetchPrices_success (pf : Platform) (r : Response) (g : Globals) (arr : List Entry)
    (hb : r.beginOk = true) (hc : r.code = 200) (hj : r.json = some (some arr)) :
    fetchPrices pf r g = (true, aggregate pf r.now arr) := by
  unfold fetchPrices
  simp [hb, hc, hj]

/-! ## Splitting an hour into its quarter-hour slots -/

theorem globals_eq (a b : Globals) (h1 : a.g_prices = b.g_prices)
    (h2 : a.g_qhPrices = b.g_qhPrices) (h3 : a.g_tmrPrices = b.g_tmrPrices)
    (h4 : a.g_hasTomorrow = b.g_hasTomorrow) : a = b := by
  cases a; cases b; simp_all

/-- C9 as stated fails for an empty prices array: fetched over the stale
globals (every price 5), the empty array succeeds and stores 0 in
`g_prices[0]`, so the globals are not those before the call. -/
theorem fetchPrices_empty_overwrites :
    ((okResponse []).beginOk = true ∧ (okResponse []).code = 200 ∧
      (okResponse []).json = some (some [])) ∧
    staleGlobals.g_prices 0 = 5 ∧
    (fetchPrices samplePlatform (okResponse []) staleGlobals).2.g_prices 0 = 0 ∧
    (fetchPrices samplePlatform (okResponse []) staleGlobals).2 ≠ staleGlobals := by
  have h0 : (fetchPrices samplePlatform (okResponse []) staleGlobals).2.g_prices 0 = 0 := by
    rw [fetchPrices_success samplePlatform (okResponse []) staleGlobals [] rfl rfl rfl]
    rw [(aggregate_spec samplePlatform (okResponse []).now []).1 0]
    simp [pricesOf, mean]
  refine ⟨⟨rfl, rfl, rfl⟩, rfl, h0, ?_⟩
  intro heq
  have h5 : staleGlobals.g_prices 0 = 5 := rfl
  rw [heq, h5] at h0
  norm_num at h0

/-- C9, amended. A failed fetch (`http.begin` fails, the status is not 200,
the JSON does not parse, or there is no prices array) returns `false` and
leaves `g_prices`, `g_qhPrices`, `g_tmrPrices` and `g_hasTomorrow` as they
were before the call. A fetch of an empty prices array succeeds and
overwrites them: all three arrays become zero and `g_hasTomorrow` false. -/
theorem fetchPrices_failure_keeps_state (pf : Platform) (r : Response) (g : Globals) :
    ((r.beginOk = false ∨ r.code ≠ 200 ∨ r.json = none ∨ r.json = some none) →
      fetchPrices pf r g = (false, g)) ∧
    ((r.beginOk = true ∧ r.code = 200 ∧ r.json = some (some [])) →
      fetchPrices pf r g
        = (true, { g_prices := fun _ => 0, g_qhPrices := fun _ => 0,
                   g_tmrPrices := fun _ => 0, g_hasTomorrow := false })) := by
  constructor
  · intro hfail
    unfold fetchPrices
    rcases hfail with h | h | h | h
    · simp [h]
    · simp [h]
    · by_cases hb : r.beginOk = true <;> by_cases hc : r.code = 200 <;> simp [h, hb, hc]
    · by_cases hb : r.beginOk = true <;> by_cases hc : r.code = 200 <;> simp [h, hb, hc]
  · rintro ⟨hb, hc, hj⟩
    rw [fetchPrices_success pf r g [] hb hc hj]
    obtain ⟨a1, a2, a3, a4⟩ := aggregate_spec pf r.now []
    have e1 : (aggregate pf r.now []).g_prices = fun _ => 0 := by
      funext h; rw [a1 h]; simp [pricesOf, mean]
    have e2 : (aggregate pf r.now []).g_tmrPrices = fun _ => 0 := by
      funext h; rw [a2 h]; simp [pricesOf, mean]
    have e3 : (aggregate pf r.now []).g_qhPrices = fun _ => 0 := by
      funext i; rw [a3 i]; simp [pricesOf]
    have e4 : (aggregate pf r.now []).g_hasTomorrow = false := by
      cases hcase : (aggregate pf r.now []).g_hasTomorrow
      · rfl
      · obtain ⟨h, hne⟩ := a4.1 hcase
        exact absurd rfl hne
    rw [globals_eq (aggregate pf r.now [])
      ⟨fun _ => 0, fun _ => 0, fun _ => 0, false⟩ e1 e3 e2 e4]

/-- C9, amended, on a call that gets HTTP status 503 over the stale globals. -/
theorem fetchPrices_failure_keeps_state_witness :
    (({ beginOk := true, code := 503, json := none, now := 0 } : Response).code ≠ 200) ∧
    fetchPrices samplePlatform { beginOk := true, code := 503, json := none, now := 0 }
      staleGlobals = (false, staleGlobals) :=
  ⟨by decide,
    (fetchPrices_failure_keeps_state samplePlatform
      { beginOk := true, code := 503, json := none, now := 0 } staleGlobals).1
      (Or.inr (Or.inl (by decide)))⟩

/-! ## The chart scale and the bars: claims C8, C10 -/

theorem scaleStep_spec (g : Globals) (m : ℚ) (h : Fin 24) :
    m ≤ scaleStep g m h ∧ g.g_prices h ≤ scaleStep g m h ∧
    (g.g_hasTomorrow = true → g.g_tmrPrices h ≤ scaleStep g m h) ∧
    (scaleStep g m h = m ∨ scaleStep g m h = g.g_prices h ∨
      (g.g_hasTomorrow = true ∧ scaleStep g m h = g.g_tmrPrices h)) := by
  unfold scaleStep
  simp only [gt_iff_lt, Bool.and_eq_true, decide_eq_true_eq]
  by_cases h1 : m < g.g_prices h
  · simp only [h1, if_true]
    by_cases ht : g.g_hasTomorrow = true
    · by_cases h2 : g.g_prices h < g.g_tmrPrices h
      · rw [if_pos ⟨ht, h2⟩]
        exact ⟨by linarith, le_of_lt h2, fun _ => le_refl _, Or.inr (Or.inr ⟨ht, rfl⟩)⟩
      · rw [if_neg (fun hh => h2 hh.2)]
        exact ⟨le_of_lt h1, le_refl _, fun _ => not_lt.mp h2, Or.inr (Or.inl rfl)⟩
    · rw [if_neg (fun hh => ht hh.1)]
      exact ⟨le_of_lt h1, le_refl _, fun hh => absurd hh ht, Or.inr (Or.inl rfl)⟩
  · simp only [h1, if_false]
    by_cases ht : g.g_hasTomorrow = true
    · by_cases h2 : m < g.g_tmrPrices h
      · rw [if_pos ⟨ht, h2⟩]
        exact ⟨le_of_lt h2, by linarith, fun _ => le_refl _, Or.inr (Or.inr ⟨ht, rfl⟩)⟩
      · rw [if_neg (fun hh => h2 hh.2)]
        exact ⟨le_refl _, not_lt.mp h1, fun _ => not_lt.mp h2, Or.inl rfl⟩
    · rw [if_neg (fun hh => ht hh.1)]
      exact ⟨le_refl _, not_lt.mp h1, fun hh => absurd hh ht, Or.inl rfl⟩

/-- The scale loop over any list of hours returns the largest of its start
value and the values it meets. -/
theorem scale_fold (g : Globals) (l : List (Fin 24)) : ∀ m : ℚ,
    m ≤ l.foldl (scaleStep g) m ∧
    (∀ h ∈ l, g.g_prices h ≤ l.foldl (scaleStep g) m) ∧
    (g.g_hasTomorrow = true → ∀ h ∈ l, g.g_tmrPrices h ≤ l.foldl (scaleStep g) m) ∧
    (l.foldl (scaleStep g) m = m ∨ ∃ h ∈ l, l.foldl (scaleStep g) m = g.g_prices h ∨
      (g.g_hasTomorrow = true ∧ l.foldl (scaleStep g) m = g.g_tmrPrices h)) := by
  induction l with
  | nil => intro m; simp
  | cons a t ih =>
    intro m
    obtain ⟨s1, s2, s3, s4⟩ := scaleStep_spec g m a
    obtain ⟨i1, i2, i3, i4⟩ := ih (scaleStep g m a)
    rw [List.foldl_cons]
    refine ⟨le_trans s1 i1, ?_, ?_, ?_⟩
    · intro h hh
      rcases List.mem_cons.1 hh with rfl | hh
      · exact le_trans s2 i1
      · exact i2 h hh
    · intro ht h hh
      rcases List.mem_cons.1 hh with rfl | hh
      · exact le_trans (s3 ht) i1
      · exact i3 ht h hh
    · rcases i4 with e | ⟨h, hh, e⟩
      · rcases s4 with e2 | e2 | ⟨ht, e2⟩
        · exact Or.inl (e.trans e2)
        · exact Or.inr ⟨a, List.mem_cons_self a t, Or.inl (e.trans e2)⟩
        · exact Or.inr ⟨a, List.mem_cons_self a t, Or.inr ⟨ht, e.trans e2⟩⟩
      · exact Or.inr ⟨h, List.mem_cons_of_mem a hh, e⟩

theorem maxP_spec (g : Globals) :
    20 ≤ maxP g ∧ (∀ h, g.g_prices h ≤ maxP g) ∧
    (g.g_hasTomorrow = true → ∀ h, g.g_tmrPrices h ≤ maxP g) ∧
    (maxP g = 20 ∨ ∃ h, maxP g = g.g_prices h ∨
      (g.g_hasTomorrow = true ∧ maxP g = g.g_tmrPrices h)) := by
  obtain ⟨a1, a2, a3, a4⟩ := scale_fold g (List.finRange 24) 20
  refine ⟨a1, fun h => a2 h (List.mem_finRange h), fun ht h => a3 ht h (List.mem_finRange h), ?_⟩
  rcases a4 with e | ⟨h, _, e⟩
  · exact Or.inl e
  · exact Or.inr ⟨h, e⟩

/-- C8. For all arrays and every flag, the scale of `drawScreen` has
`maxP = max(20, max of today, and max of tomorrow only when g_hasTomorrow)`
and `midP = maxP / 2`; when every value taken into account is below 20 the
maximum is 20, and with `g_hasTomorrow` clear tomorrow's values do not
influence it. -/
theorem drawScreen_scale (g : Globals) :
    maxP g = max 20 (if g.g_hasTomorrow then
        max (Finset.univ.sup' Finset.univ_nonempty g.g_prices)
          (Finset.univ.sup' Finset.univ_nonempty g.g_tmrPrices)
      else Finset.univ.sup' Finset.univ_nonempty g.g_prices) ∧
    midP g = maxP g / 2 ∧
    ((∀ h, g.g_prices h < 20) → (g.g_hasTomorrow = true → ∀ h, g.g_tmrPrices h < 20) →
      maxP g = 20) ∧
    (g.g_hasTomorrow = false →
      ∀ other : Fin 24 → ℚ, maxP { g with g_tmrPrices := other } = maxP g) := by
  obtain ⟨a1, a2, a3, a4⟩ := maxP_spec g
  refine ⟨?_, rfl, ?_, ?_⟩
  · apply le_antisymm
    · rcases a4 with e | ⟨h, e | ⟨ht, e⟩⟩
      · rw [e]; exact le_max_left _ _
      · rw [e]
        refine le_trans ?_ (le_max_right _ _)
        have hs := Finset.le_sup' g.g_prices (Finset.mem_univ h)
        split_ifs
        · exact le_trans hs (le_max_left _ _)
        · exact hs
      · rw [e, if_pos ht]
        refine le_trans ?_ (le_max_right _ _)
        exact le_trans (Finset.le_sup' g.g_tmrPrices (Finset.mem_univ h)) (le_max_right _ _)
    · apply max_le a1
      split_ifs with ht
      · exact max_le (Finset.sup'_le _ _ (fun h _ => a2 h))
          (Finset.sup'_le _ _ (fun h _ => a3 ht h))
      · exact Finset.sup'_le _ _ (fun h _ => a2 h)
  · intro htoday htmr
    rcases a4 with e | ⟨h, e | ⟨ht, e⟩⟩
    · exact e
    · have := htoday h; linarith
    · have := htmr ht h; linarith
  · intro hf other
    unfold maxP
    congr 1
    funext m h
    simp [scaleStep, hf]

/-- C8 on the stale globals with every value 5, below 20. -/
theorem drawScreen_scale_witness :
    ((∀ h, staleGlobals.g_prices h < 20) ∧
      (staleGlobals.g_hasTomorrow = true → ∀ h, staleGlobals.g_tmrPrices h < 20)) ∧
    maxP staleGlobals = 20 :=
  ⟨⟨fun _ => by norm_num [staleGlobals], fun _ _ => by norm_num [staleGlobals]⟩,
    (drawScreen_scale staleGlobals).2.2.1 (fun _ => by norm_num [staleGlobals])
      (fun _ _ => by norm_num [staleGlobals])⟩

theorem truncToInt_le (x : ℚ) (n : Int) (hn : 0 ≤ n) (hx : x ≤ (n : ℚ)) :
    truncToInt x ≤ n := by
  unfold truncToInt
  by_cases h0 : 0 ≤ x.num
  · rw [Int.tdiv_eq_ediv h0 (by exact_mod_cast Nat.zero_le x.den), ← Rat.floor_def]
    have h1 : ((⌊x⌋ : Int) : ℚ) ≤ x := Int.floor_le x
    have h2 : ((⌊x⌋ : Int) : ℚ) ≤ (n : ℚ) := le_trans h1 hx
    exact_mod_cast h2
  · have hneg : 0 ≤ -x.num := by omega
    have h1 := Int.tdiv_nonneg hneg (by exact_mod_cast Nat.zero_le x.den : (0 : Int) ≤ x.den)
    rw [Int.neg_tdiv] at h1
    omega

/-- The height of a bar whose value does not exceed the scale. -/
theorem barH_bounds (value scale : ℚ) (hs : 0 < scale) (hv : value ≤ scale) :
    2 ≤ barH value scale ∧ barH value scale ≤ 125 := by
  unfold barH
  refine ⟨le_max_left _ _, max_le (by decide) ?_⟩
  apply truncToInt_le _ 125 (by decide)
  have h1 : value / scale ≤ 1 := (div_le_one hs).2 hv
  have : value / scale * (CHART_H : ℚ) ≤ 1 * (CHART_H : ℚ) :=
    mul_le_mul_of_nonneg_right h1 (by norm_num [CHART_H])
  simpa [CHART_H] using this

/-- C10. Every bar `drawScreen` draws stays inside the chart area: for
every state of the globals, with `maxP` derived from it, each of today's 24
bars, and each of tomorrow's 24 bars when `g_hasTomorrow` is set, has height
`barH = max(2, trunc(value / maxP * 125))` with `2 ≤ barH ≤ 125`, and its top
`y = 93 + 125 - barH` is not above the chart top 93; for the value 0 the
height is 2. -/
theorem drawScreen_bars_inside_chart (g : Globals) :
    (∀ h, (todayBar g h).2
        = max 2 (truncToInt (g.g_prices h / maxP g * 125)) ∧
      2 ≤ (todayBar g h).2 ∧ (todayBar g h).2 ≤ 125 ∧
      (todayBar g h).1 = 93 + 125 - (todayBar g h).2 ∧ 93 ≤ (todayBar g h).1) ∧
    (g.g_hasTomorrow = true → ∀ h, ∃ y height, tomorrowBar g h = some (y, height) ∧
      height = max 2 (truncToInt (g.g_tmrPrices h / maxP g * 125)) ∧
      2 ≤ height ∧ height ≤ 125 ∧ y = 93 + 125 - height ∧ 93 ≤ y) ∧
    barH 0 (maxP g) = 2 := by
  obtain ⟨a1, a2, a3, _⟩ := maxP_spec g
  have hpos : 0 < maxP g := by linarith
  refine ⟨?_, ?_, ?_⟩
  · intro h
    obtain ⟨b1, b2⟩ := barH_bounds (g.g_prices h) (maxP g) hpos (a2 h)
    refine ⟨by simp [todayBar, barH, CHART_H], b1, b2, rfl, ?_⟩
    show 93 ≤ barY _ _
    unfold barY CHART_Y CHART_H
    omega
  · intro ht h
    obtain ⟨b1, b2⟩ := barH_bounds (g.g_tmrPrices h) (maxP g) hpos (a3 ht h)
    refine ⟨barY (g.g_tmrPrices h) (maxP g), barH (g.g_tmrPrices h) (maxP g), ?_, ?_, b1, b2,
      rfl, ?_⟩
    · simp [tomorrowBar, ht]
    · simp [barH, CHART_H]
    · unfold barY CHART_Y CHART_H
      omega
  · simp [barH, truncToInt]

/-- C10 on the stale globals, where tomorrow's bars are drawn. -/
theorem drawScreen_bars_inside_chart_witness :
    staleGlobals.g_hasTomorrow = true ∧
    ∀ h, ∃ y height, tomorrowBar staleGlobals h = some (y, height) ∧
      height = max 2 (truncToInt (staleGlobals.g_tmrPrices h / maxP staleGlobals * 125)) ∧
      2 ≤ height ∧ height ≤ 125 ∧ y = 93 + 125 - height ∧ 93 ≤ y :=
  ⟨rfl, (drawScreen_bars_inside_chart staleGlobals).2.1 rfl⟩

end Porssisahko
